import Mathlib

/-!
Verification of the flood-fill module (`src/flood_fill.h`).

The three traversal algorithms of the header are embedded shallowly:

* `ff.point_flood_fill_4_connected` — the 2D breadth-first fill, over a state
  record holding the FIFO queue, the caller-shared visited set, the returned
  vector of filled points, and observation lists (dequeued points, predicate
  calls).
* `ff.flood_fill_visit_26_connected` — the 3D BFS with three FIFO queues.
* `ff.flood_fill_visit_10_connected` — the scanline fill with per-layer span
  backlogs.  Every loop of the source is a recursive function here; unbounded
  loops take fuel, and exhausting fuel sets a `halted` flag so that every run
  of the embedding is a faithful prefix of the source's execution.

The run state carries a chronological event log (most recent event first)
recording each predicate invocation (tagged with its call site kind), each
visitor call, each insertion into a visited set, and each span emplacement
(with the pre-narrowing integer arguments and the target array index, so that
out-of-range array accesses and degenerate spans are observable).  An `oob` flag
records any access to the span backlog array outside its bounds.
-/

namespace ff

/-- 2D point: the source's `Point` template parameter instantiated at the
game's point type — integer x and y with componentwise addition. -/
structure point where
  x : Int
  y : Int
deriving DecidableEq, Repr

instance : Add point := ⟨fun a b => ⟨a.x + b.x, a.y + b.y⟩⟩

/-- Modelled from the spec: `point.h` (outside the provided sources) supplies
unit offset constants for the four cardinal directions; south is +y. -/
def point_south : point := ⟨0, 1⟩

/-- Modelled from the spec: unit step north (−y). -/
def point_north : point := ⟨0, -1⟩

/-- Modelled from the spec: unit step east (+x). -/
def point_east : point := ⟨1, 0⟩

/-- Modelled from the spec: unit step west (−x). -/
def point_west : point := ⟨-1, 0⟩

/-- 3D point with integer x, y, z components. -/
structure tripoint where
  x : Int
  y : Int
  z : Int
deriving DecidableEq, Repr

instance : Add tripoint := ⟨fun a b => ⟨a.x + b.x, a.y + b.y, a.z + b.z⟩⟩

/-- Modelled from the spec: the eight horizontal (same-layer) unit offsets
from `enums.h`; the exact iteration order is not observable by any of the
set-valued claims. -/
def eight_horizontal_neighbors : List tripoint :=
  [⟨-1, -1, 0⟩, ⟨0, -1, 0⟩, ⟨1, -1, 0⟩, ⟨-1, 0, 0⟩,
   ⟨1, 0, 0⟩, ⟨-1, 1, 0⟩, ⟨0, 1, 0⟩, ⟨1, 1, 0⟩]

/-- Modelled from the spec: the unit step to the layer above (+z). -/
def tripoint_above : tripoint := ⟨0, 0, 1⟩

/-- Modelled from the spec: the unit step to the layer below (−z). -/
def tripoint_below : tripoint := ⟨0, 0, -1⟩

/-- Modelled from the spec: the number of layers below the reference layer
(the depth bias added to a z coordinate to index the backlog array). -/
def OVERMAP_DEPTH : Int := 10

/-- Modelled from the spec: the topmost valid layer. -/
def OVERMAP_HEIGHT : Int := 10

/-- Modelled from the spec: the total number of stacked layers; the span
backlog array is sized exactly to this count. -/
def OVERMAP_LAYERS : Int := 21

/-! ### 4-connected point flood fill -/

/-- State of a `point_flood_fill_4_connected` run: the FIFO queue (front at
the head), the caller-shared visited set, the result vector `filled` (most
recently filled first), plus observations: every dequeued point and every
point passed to the predicate, each most recent first.  `done` marks a run
whose queue drained; `halted` marks fuel exhaustion. -/
structure FF4State where
  queue : List point
  visited : List point
  filled : List point
  dequeued : List point
  predCalls : List point
  done : Bool
  halted : Bool
deriving Repr

/-- One C++ `while` iteration per unit of fuel: dequeue, skip if visited,
otherwise insert into visited, evaluate the predicate and on success record
the point and enqueue the four orthogonal neighbours (south, north, east,
west — the source's push order). -/
def ff4run (pred : point → Bool) : Nat → FF4State → FF4State
  | 0, st => { st with halted := true }
  | fuel + 1, st =>
    match st.queue with
    | [] => { st with done := true }
    | p :: q =>
      let st1 := { st with queue := q, dequeued := p :: st.dequeued }
      if p ∈ st1.visited then
        ff4run pred fuel st1
      else
        let st2 := { st1 with visited := p :: st1.visited, predCalls := p :: st1.predCalls }
        if pred p then
          ff4run pred fuel { st2 with
            filled := p :: st2.filled,
            queue := st2.queue ++
              [p + point_south, p + point_north, p + point_east, p + point_west] }
        else
          ff4run pred fuel st2

/-- Entry point of the 4-connected fill: seed the queue with the starting
point and run on the caller's visited set. -/
def point_flood_fill_4_connected (starting_point : point) (visited : List point)
    (pred : point → Bool) (fuel : Nat) : FF4State :=
  ff4run pred fuel
    { queue := [starting_point], visited := visited, filled := [],
      dequeued := [], predCalls := [], done := false, halted := false }

/-! ### 26-connected visitor flood fill -/

/-- State of a `flood_fill_visit_26_connected` run: the three FIFO queues,
the internal visited set, the list of points handed to the visitor (most
recent first) and the predicate-call observations. -/
structure FF26State where
  to_check : List tripoint
  to_check_up : List tripoint
  to_check_down : List tripoint
  visited : List tripoint
  visitLog : List tripoint
  predCalls : List (tripoint × Int)
  done : Bool
  halted : Bool
deriving Repr

/-- The body of one 26-connected iteration after the dequeue: `p` is the
dequeued point, `dir` the vertical direction hint recording which queue
produced it, and `q`/`qup`/`qdown` the three queues with `p` removed; skip
visited points, otherwise insert, evaluate, and on success visit and enqueue
the eight horizontal neighbours plus the cells directly above and below. -/
def ff26step (pred : tripoint → Int → Bool) (st : FF26State) (p : tripoint) (dir : Int)
    (q qup qdown : List tripoint) : FF26State :=
  let st1 := { st with to_check := q, to_check_up := qup, to_check_down := qdown }
  if p ∈ st1.visited then st1
  else
    let st2 := { st1 with visited := p :: st1.visited, predCalls := (p, dir) :: st1.predCalls }
    if pred p dir then
      { st2 with
        visitLog := p :: st2.visitLog,
        to_check := st2.to_check ++ eight_horizontal_neighbors.map (fun h => p + h),
        to_check_up := st2.to_check_up ++ [p + tripoint_above],
        to_check_down := st2.to_check_down ++ [p + tripoint_below] }
    else st2

/-- The 26-connected main loop: dequeue preferring the same-level queue,
then up, then down, one C++ iteration per unit of fuel. -/
def ff26run (pred : tripoint → Int → Bool) : Nat → FF26State → FF26State
  | 0, st => { st with halted := true }
  | fuel + 1, st =>
    match st.to_check, st.to_check_up, st.to_check_down with
    | [], [], [] => { st with done := true }
    | p :: q, qup, qdown => ff26run pred fuel (ff26step pred st p 0 q qup qdown)
    | [], p :: qup, qdown => ff26run pred fuel (ff26step pred st p 1 [] qup qdown)
    | [], [], p :: qdown => ff26run pred fuel (ff26step pred st p (-1) [] [] qdown)

/-- Entry point of the 26-connected fill. -/
def flood_fill_visit_26_connected (starting_point : tripoint)
    (pred : tripoint → Int → Bool) (fuel : Nat) : FF26State :=
  ff26run pred fuel
    { to_check := [starting_point], to_check_up := [], to_check_down := [],
      visited := [], visitLog := [], predCalls := [], done := false, halted := false }

/-! ### 10-connected scanline flood fill -/

/-- The stored value of a C++ `uint8_t` initialised from an `int`. -/
def toU8 (v : Int) : Nat := (v % 256).toNat

/-- The stored value of a C++ `int8_t` initialised from an `int`. -/
def toI8 (v : Int) : Int := (v + 128) % 256 - 128

/-- The source's `span`: inclusive horizontal extent `startX ‥ endX`, row
`y` (all stored as `uint8_t`), row direction `dy`, layer `z` and vertical
offshoot direction `dz` (stored as `int8_t`). -/
structure span where
  startX : Nat
  endX : Nat
  y : Nat
  dy : Int
  z : Int
  dz : Int
deriving DecidableEq, Repr

/-- The span constructor: narrows each argument exactly as the C++
member-initialiser list does. -/
def mkSpan (sx ex y dy z dz : Int) : span :=
  ⟨toU8 sx, toU8 ex, toU8 y, toI8 dy, toI8 z, toI8 dz⟩

/-- Which call site invoked the predicate: through the horizontal `check`
lambda, through the `check_vertical` lambda, or directly (the gap-skipping
scan at the end of the confirmed-span loop). -/
inductive CallSrc where
  | viaCheck
  | viaCheckVertical
  | direct
deriving DecidableEq, Repr

/-- Observable events of a 10-connected run, most recent first in the log. -/
inductive Ev where
  | predCall (p : tripoint) (dir : Int) (src : CallSrc)
  | visit (p : tripoint)
  | insertH (p : tripoint)
  | insertV (p : tripoint)
  | pushSpan (idx sx ex y dy z dz : Int)
deriving DecidableEq, Repr

/-- State of a `flood_fill_visit_10_connected` run: the two visited sets,
the per-layer span backlog (index `i` holds layer `z = i − OVERMAP_DEPTH`,
stack top at the head), the cursor layer `current_z`, the event log (most
recent first), the source's debug counters, and the `oob`/`halted`/`done`
flags. -/
structure FFState where
  visited : List tripoint
  visited_vertically : List tripoint
  spans_to_process : List (List span)
  current_z : Int
  log : List Ev
  check_count : Nat
  visit_count : Nat
  oob : Bool
  halted : Bool
  done : Bool
deriving Repr

/-- `emplace_back` onto the backlog slot at `idx`, recording the intended
(pre-narrowing) arguments in the log; an index outside `[0, OVERMAP_LAYERS)`
is an out-of-bounds array access and sets the `oob` flag. -/
def pushSpanTo (st : FFState) (idx sx ex y dy z dz : Int) : FFState :=
  let st1 := { st with log := Ev.pushSpan idx sx ex y dy z dz :: st.log }
  if 0 ≤ idx ∧ idx < OVERMAP_LAYERS then
    let newSlot := mkSpan sx ex y dy z dz :: st1.spans_to_process.getD idx.toNat []
    { st1 with spans_to_process := st1.spans_to_process.set idx.toNat newSlot }
  else
    { st1 with oob := true }

/-- The source's `check` lambda: bump the counter, short-circuit on the
horizontal visited set, and only then invoke the predicate. -/
def check (pred : tripoint → Int → Bool) (st : FFState) (p : tripoint) (dir : Int) :
    FFState × Bool :=
  let st1 := { st with check_count := st.check_count + 1 }
  if p ∈ st1.visited then (st1, false)
  else ({ st1 with log := Ev.predCall p dir CallSrc.viaCheck :: st1.log }, pred p dir)

/-- The source's `check_vertical` lambda: like `check` but consulting only
the vertical visited set. -/
def check_vertical (pred : tripoint → Int → Bool) (st : FFState) (p : tripoint) (dir : Int) :
    FFState × Bool :=
  let st1 := { st with check_count := st.check_count + 1 }
  if p ∈ st1.visited_vertically then (st1, false)
  else ({ st1 with log := Ev.predCall p dir CallSrc.viaCheckVertical :: st1.log }, pred p dir)

/-- `visit_count++; visitor(p); visited.insert(p);` -/
def doVisit (st : FFState) (p : tripoint) : FFState :=
  { st with visit_count := st.visit_count + 1,
            log := Ev.insertH p :: Ev.visit p :: st.log,
            visited := p :: st.visited }

/-- Vertical-offshoot span processing (the `dz != 0` branch): walk x from
`startX` to `endX`; cells passing `check_vertical` extend `new_span` and are
inserted into the vertical visited set; when a run is broken by a failing
cell, a confirmed span pair (+y and −y, `dz = 0`) is pushed — exactly as in
the source, a run still open when x passes `endX` pushes nothing.
`newStartX` is never reset, again as in the source. -/
def offshootScan (pred : tripoint → Int → Bool) :
    Nat → FFState → span → Int → Int → Int → Bool → FFState
  | 0, st, _, _, _, _, _ => { st with halted := true }
  | fuel + 1, st, cs, x, newStartX, newEndX, spanFound =>
    if x ≤ (cs.endX : Int) then
      let p : tripoint := ⟨x, (cs.y : Int), cs.z⟩
      let res := check_vertical pred st p cs.dz
      if res.2 then
        offshootScan pred fuel
          { res.1 with visited_vertically := p :: res.1.visited_vertically,
                       log := Ev.insertV p :: res.1.log }
          cs (x + 1) newStartX x true
      else
        let st2 :=
          if spanFound then
            pushSpanTo
              (pushSpanTo res.1 (res.1.current_z + OVERMAP_DEPTH)
                newStartX newEndX (cs.y : Int) 1 cs.z 0)
              (res.1.current_z + OVERMAP_DEPTH)
              newStartX newEndX ((cs.y : Int) - 1) (-1) cs.z 0
          else res.1
        offshootScan pred fuel st2 cs (x + 1) newStartX newEndX false
    else st

/-- The gap-skipping scan (`while (x < endX && !predicate(x))`): the
predicate is invoked directly, without consulting any visited set. -/
def skipScan (pred : tripoint → Int → Bool) :
    Nat → FFState → Int → Int → Int → Int → FFState × Int
  | 0, st, x, _, _, _ => ({ st with halted := true }, x)
  | fuel + 1, st, x, yy, zz, endX =>
    if x < endX then
      let st1 := { st with log := Ev.predCall ⟨x, yy, zz⟩ 0 CallSrc.direct :: st.log }
      if pred ⟨x, yy, zz⟩ 0 then (st1, x)
      else skipScan pred fuel st1 (x + 1) yy zz endX
    else (st, x)

/-- The rightward visiting loop (`while (check(x)) { visit; insert; x++ }`). -/
def visitLoop (pred : tripoint → Int → Bool) : Nat → FFState → Int → Int → Int → FFState × Int
  | 0, st, x, _, _ => ({ st with halted := true }, x)
  | fuel + 1, st, x, yy, zz =>
    let res := check pred st ⟨x, yy, zz⟩ 0
    if res.2 then visitLoop pred fuel (doVisit res.1 ⟨x, yy, zz⟩) (x + 1) yy zz
    else (res.1, x)

/-- The leftward visiting loop (`while (check(x)) { visit; insert; x-- }`). -/
def leftScanLoop (pred : tripoint → Int → Bool) : Nat → FFState → Int → Int → Int → FFState × Int
  | 0, st, x, _, _ => ({ st with halted := true }, x)
  | fuel + 1, st, x, yy, zz =>
    let res := check pred st ⟨x, yy, zz⟩ 0
    if res.2 then leftScanLoop pred fuel (doVisit res.1 ⟨x, yy, zz⟩) (x - 1) yy zz
    else (res.1, x)

/-- The leftward probe of a confirmed span: if the cell at `startX` passes
`check`, scan left of it visiting while `check` passes, step back right one,
and if anything left of `startX` was claimed emit the corner-wrap span with
negated `dy`.  Returns the final `current_point.x`. -/
def processLeft (pred : tripoint → Int → Bool) (fuel : Nat) (st : FFState) (cs : span) :
    FFState × Int :=
  let x0 : Int := (cs.startX : Int)
  let res := check pred st ⟨x0, (cs.y : Int), cs.z⟩ 0
  if res.2 then
    let res2 := leftScanLoop pred fuel res.1 (x0 - 1) (cs.y : Int) cs.z
    if res2.1.halted then res2
    else
      let x2 := res2.2 + 1
      let st3 :=
        if x2 < (cs.startX : Int) then
          pushSpanTo res2.1 (res2.1.current_z + OVERMAP_DEPTH)
            (x2 - 1) ((cs.startX : Int) - 1) ((cs.y : Int) - cs.dy) (-cs.dy) cs.z 0
        else res2.1
      (st3, x2)
  else (res.1, x0)

/-- The forward-progress push block of the rightward scan (`x1 > furthestX`):
emit the continuation span (preserving `dy`) and the vertical-offshoot spans
under the source's guards `current_z + 1 < OVERMAP_LAYERS` and
`current_z - 1 >= 0`. -/
def pushA (st : FFState) (cs : span) (x1 furthestX : Int) : FFState :=
  if x1 > furthestX then
    let s1 := pushSpanTo st (st.current_z + OVERMAP_DEPTH)
      (furthestX - 1) x1 ((cs.y : Int) + cs.dy) cs.dy cs.z 0
    let s2 :=
      if s1.current_z + 1 < OVERMAP_LAYERS then
        pushSpanTo s1 (s1.current_z + OVERMAP_DEPTH + 1)
          furthestX (x1 - 1) (cs.y : Int) 0 (cs.z + 1) 1
      else s1
    if s2.current_z - 1 ≥ 0 then
      pushSpanTo s2 (s2.current_z + OVERMAP_DEPTH - 1)
        furthestX (x1 - 1) (cs.y : Int) 0 (cs.z - 1) (-1)
    else s2
  else st

/-- The right corner-wrap push of the rightward scan (`x1 - 1 > endX`):
emit the span going in the other y direction. -/
def pushB (st : FFState) (cs : span) (x1 : Int) : FFState :=
  if x1 - 1 > (cs.endX : Int) then
    pushSpanTo st (st.current_z + OVERMAP_DEPTH)
      ((cs.endX : Int) + 1) x1 ((cs.y : Int) - cs.dy) (-cs.dy) cs.z 0
  else st

/-- The rightward scan across a confirmed span: visit contiguous runs, and on
forward progress emit the continuation span and the vertical-offshoot spans
(`pushA`); on overrunning `endX` emit the right corner-wrap span (`pushB`);
then skip unvisitable cells and continue. -/
def rightScanLoop (pred : tripoint → Int → Bool) : Nat → FFState → span → Int → Int → FFState
  | 0, st, _, _, _ => { st with halted := true }
  | fuel + 1, st, cs, x, furthestX =>
    if st.halted then st
    else if x ≤ (cs.endX : Int) then
      let res := visitLoop pred fuel st x (cs.y : Int) cs.z
      if res.1.halted then res.1
      else
        let stB := pushB (pushA res.1 cs res.2 furthestX) cs res.2
        let res3 := skipScan pred fuel stB (res.2 + 1) (cs.y : Int) cs.z (cs.endX : Int)
        rightScanLoop pred fuel res3.1 cs res3.2 res3.2
    else st

/-- Confirmed-span (`dz = 0`) processing: leftward probe, then the rightward
scan starting from `startX` with `furthestX` set to the leftward result. -/
def processSpan (pred : tripoint → Int → Bool) (fuel : Nat) (st : FFState) (cs : span) :
    FFState :=
  let res := processLeft pred fuel st cs
  if res.1.halted then res.1
  else rightScanLoop pred fuel res.1 cs (cs.startX : Int) res.2

/-- Pop the top of the current layer's backlog, if non-empty. -/
def popCurrent (st : FFState) : Option (FFState × span) :=
  match st.spans_to_process.getD (st.current_z + OVERMAP_DEPTH).toNat [] with
  | [] => none
  | cs :: rest =>
    let newSpans := st.spans_to_process.set (st.current_z + OVERMAP_DEPTH).toNat rest
    some ({ st with spans_to_process := newSpans }, cs)

/-- The layer-scan fallback: walk `current_z` from `OVERMAP_HEIGHT` down to
`-OVERMAP_DEPTH`, adopting the first layer with a pending span.  The
argument is the biased array index `current_z + OVERMAP_DEPTH`, counted down
from `OVERMAP_LAYERS - 1` to `0` exactly as the source's `for` loop walks
`current_z` from `OVERMAP_HEIGHT` down to `-OVERMAP_DEPTH`. -/
def takeLayer (st : FFState) (n : Nat) : Option (FFState × span) :=
  match st.spans_to_process.getD n [] with
  | cs :: rest =>
    let newSpans := st.spans_to_process.set n rest
    some ({ st with spans_to_process := newSpans,
                    current_z := (n : Int) - OVERMAP_DEPTH }, cs)
  | [] => none

/-- Recursive descent of the layer-scan fallback over the biased indices. -/
def findTopIdx (st : FFState) : Nat → Option (FFState × span)
  | 0 => takeLayer st 0
  | n + 1 =>
    match takeLayer st (n + 1) with
    | some r => some r
    | none => findTopIdx st n

/-- Dispatch on the popped span: vertical offshoot or confirmed span. -/
def stepSpan (pred : tripoint → Int → Bool) (fuel : Nat) (st : FFState) (cs : span) :
    FFState :=
  if cs.dz ≠ 0 then
    offshootScan pred fuel st cs (cs.startX : Int) (cs.startX : Int) (cs.endX : Int) false
  else processSpan pred fuel st cs

/-- The main loop: pop from the current layer, else scan layers top to
bottom, else terminate (the source leaves `current_z` one below the valid
range when the scan finds nothing). -/
def mainLoop (pred : tripoint → Int → Bool) : Nat → FFState → FFState
  | 0, st => { st with halted := true }
  | fuel + 1, st =>
    if st.halted then st
    else
      match popCurrent st with
      | some (st1, cs) => mainLoop pred fuel (stepSpan pred fuel st1 cs)
      | none =>
        match findTopIdx st (OVERMAP_LAYERS.toNat - 1) with
        | some (st1, cs) => mainLoop pred fuel (stepSpan pred fuel st1 cs)
        | none => { st with done := true, current_z := -OVERMAP_DEPTH - 1 }

/-- Entry point of the scanline fill: seed the starting layer's backlog with
the two initial spans (+y on the starting row, −y on the row above it in
scan order), then run the main loop. -/
def flood_fill_visit_10_connected (pred : tripoint → Int → Bool) (starting_point : tripoint)
    (fuel : Nat) : FFState :=
  let st0 : FFState :=
    { visited := [], visited_vertically := [],
      spans_to_process := List.replicate OVERMAP_LAYERS.toNat [],
      current_z := starting_point.z, log := [], check_count := 0, visit_count := 0,
      oob := false, halted := false, done := false }
  let st1 := pushSpanTo st0 (starting_point.z + OVERMAP_DEPTH)
    starting_point.x starting_point.x starting_point.y 1 starting_point.z 0
  let st2 := pushSpanTo st1 (starting_point.z + OVERMAP_DEPTH)
    starting_point.x starting_point.x (starting_point.y - 1) (-1) starting_point.z 0
  mainLoop pred fuel st2

/-! ### Observations over the event log -/

/-- The points handed to the visitor, in log order (most recent first). -/
def visitsOf (l : List Ev) : List tripoint :=
  l.filterMap fun e => match e with | Ev.visit p => some p | _ => none

/-- `true` iff somewhere in the log the predicate was invoked (from any call
site) on a coordinate whose horizontal-visited insertion happened earlier.
The log is most recent first, so the tail of an entry is its past. -/
def callAfterInsertH : List Ev → Bool
  | [] => false
  | Ev.predCall p _ _ :: rest => decide (Ev.insertH p ∈ rest) || callAfterInsertH rest
  | _ :: rest => callAfterInsertH rest

/-- `true` iff the predicate was invoked through the horizontal `check`
lambda on a coordinate already inserted into the horizontal visited set. -/
def checkCallAfterInsertH : List Ev → Bool
  | [] => false
  | Ev.predCall p _ CallSrc.viaCheck :: rest =>
    decide (Ev.insertH p ∈ rest) || checkCallAfterInsertH rest
  | _ :: rest => checkCallAfterInsertH rest

/-- `true` iff some coordinate was handed to the visitor twice. -/
def visitAfterVisit : List Ev → Bool
  | [] => false
  | Ev.visit p :: rest => decide (Ev.visit p ∈ rest) || visitAfterVisit rest
  | _ :: rest => visitAfterVisit rest

/-- `true` iff the log contains a span push whose intended `dz` equals `d`. -/
def hasPushDz (l : List Ev) (d : Int) : Bool :=
  l.any fun e => match e with
    | Ev.pushSpan _ _ _ _ _ _ dz => decide (dz = d)
    | _ => false

/-- `true` iff the log contains a span push onto backlog slot `i` whose
intended `dz` equals `d`. -/
def hasPushIdxDz (l : List Ev) (i d : Int) : Bool :=
  l.any fun e => match e with
    | Ev.pushSpan idx _ _ _ _ _ dz => decide (idx = i) && decide (dz = d)
    | _ => false

/-! ### Concrete predicates used by the counterexamples and failing inputs -/

/-- Two traversable cells stacked vertically at (5,5), layers 0 and 1. -/
def predTower : tripoint → Int → Bool := fun p _ => decide (p = ⟨5, 5, 0⟩ ∨ p = ⟨5, 5, 1⟩)

/-- A single traversable cell on the topmost layer. -/
def predTop : tripoint → Int → Bool := fun p _ => decide (p = ⟨5, 5, 10⟩)

/-- A single traversable cell on layer 0. -/
def predFlatOne : tripoint → Int → Bool := fun p _ => decide (p = ⟨5, 5, 0⟩)

/-- The 2D predicate equivalent to `predFlatOne` on layer 0. -/
def predFlatOne2d : point → Bool := fun p => decide (p = ⟨5, 5⟩)

/-- Two diagonally adjacent traversable cells on layer 0 — not 4-connected. -/
def predDiag : tripoint → Int → Bool := fun p _ => decide (p = ⟨5, 5, 0⟩ ∨ p = ⟨4, 6, 0⟩)

/-- The 2D predicate equivalent to `predDiag` on layer 0. -/
def predDiag2d : point → Bool := fun p => decide (p = ⟨5, 5⟩ ∨ p = ⟨4, 6⟩)

/-- A flat vertical domino at the left edge of the `uint8_t` coordinate
range: two 4-connected cells on layer 0 with no diagonal adjacency. -/
def predDomino : tripoint → Int → Bool := fun p _ => decide (p = ⟨0, 0, 0⟩ ∨ p = ⟨0, 1, 0⟩)

/-- The 2D predicate equivalent to `predDomino` on layer 0. -/
def predDomino2d : point → Bool := fun p => decide (p = ⟨0, 0⟩ ∨ p = ⟨0, 1⟩)

/-- A two-cell row on layer 0 with one traversable cell on layer 1 above the
row's left end: the fill climbs to layer 1 and emits a downward offshoot
back over the already horizontally visited cell (3,5,0). -/
def predLedge : tripoint → Int → Bool :=
  fun p _ => decide (p = ⟨3, 5, 0⟩ ∨ p = ⟨4, 5, 0⟩ ∨ p = ⟨3, 5, 1⟩)

/-- A finite rectangular 2D region given by inclusive bounds. -/
def inRect (x0 x1 y0 y1 : Int) (p : point) : Prop :=
  x0 ≤ p.x ∧ p.x ≤ x1 ∧ y0 ≤ p.y ∧ p.y ≤ y1

instance (x0 x1 y0 y1 : Int) (p : point) : Decidable (inRect x0 x1 y0 y1 p) := by
  unfold inRect
  infer_instance

/-- The cells of the rectangle as a finite set. -/
def rectFinset (x0 x1 y0 y1 : Int) : Finset point :=
  (Finset.Icc x0 x1 ×ˢ Finset.Icc y0 y1).image fun q => ⟨q.1, q.2⟩

/-- Total number of pending spans across all backlog slots. -/
def spanCount (st : FFState) : Nat := (st.spans_to_process.map List.length).sum

/-- Cells of the support not yet horizontally visited. -/
def hvCount (S : Finset tripoint) (st : FFState) : Nat :=
  (S.filter (fun p => p ∉ st.visited)).card

/-- Cells of the support not yet vertically visited. -/
def vvCount (S : Finset tripoint) (st : FFState) : Nat :=
  (S.filter (fun p => p ∉ st.visited_vertically)).card

/-- Termination potential of the scanline fill: every pop removes a span
and every push is paid for by a fresh horizontal or vertical visit of a
support cell. -/
def phi (S : Finset tripoint) (st : FFState) : Nat :=
  6 * hvCount S st + 3 * vvCount S st + spanCount st

/-- Every span sitting in a backlog slot has `endX < 256` (spans are only
ever constructed through `mkSpan`, which narrows to `uint8_t`). -/
def SpansBounded (st : FFState) : Prop :=
  ∀ l ∈ st.spans_to_process, ∀ sp ∈ l, sp.endX < 256

/-- The log/visited invariant of the scanline fill, preserved by every step:
every span ever pushed satisfies `startX ≤ endX` in intended coordinates;
the predicate is never invoked through the horizontal `check` on an already
inserted coordinate; no coordinate is visited twice; the horizontal
insertions logged are exactly the horizontal visited set; and every visited
coordinate is in the horizontal visited set. -/
structure LogOK (st : FFState) : Prop where
  pushes : ∀ idx sx ex y dy z dz, Ev.pushSpan idx sx ex y dy z dz ∈ st.log → sx ≤ ex
  recheck : checkCallAfterInsertH st.log = false
  revisit : visitAfterVisit st.log = false
  insertIff : ∀ p, Ev.insertH p ∈ st.log ↔ p ∈ st.visited
  visitMem : ∀ p, Ev.visit p ∈ st.log → p ∈ st.visited

end ff

namespace ff

set_option maxRecDepth 8000
set_option maxHeartbeats 1000000

/-! ### Invariant lemmas for the scanline fill -/

theorem logOK_of_eq {st st' : FFState} (h : LogOK st) (hl : st'.log = st.log)
    (hv : st'.visited = st.visited) : LogOK st' := by
  refine ⟨?_, ?_, ?_, ?_, ?_⟩
  · rw [hl]; exact h.pushes
  · rw [hl]; exact h.recheck
  · rw [hl]; exact h.revisit
  · rw [hl, hv]; exact h.insertIff
  · rw [hl, hv]; exact h.visitMem

theorem logOK_consPush {st : FFState} (h : LogOK st) {idx sx ex y dy z dz : Int}
    (hle : sx ≤ ex) : LogOK { st with log := Ev.pushSpan idx sx ex y dy z dz :: st.log } := by
  refine ⟨?_, ?_, ?_, ?_, ?_⟩
  · intro i a b c d e f hmem
    rcases List.mem_cons.1 hmem with heq | hmem
    · cases heq; exact hle
    · exact h.pushes i a b c d e f hmem
  · simpa [checkCallAfterInsertH] using h.recheck
  · simpa [visitAfterVisit] using h.revisit
  · intro p; simpa using h.insertIff p
  · intro p hp; exact h.visitMem p (by simpa using hp)

theorem logOK_consCheckCall {st : FFState} (h : LogOK st) {p : tripoint} {dir : Int}
    (hp : p ∉ st.visited) :
    LogOK { st with log := Ev.predCall p dir CallSrc.viaCheck :: st.log } := by
  refine ⟨?_, ?_, ?_, ?_, ?_⟩
  · intro i a b c d e f hmem
    exact h.pushes i a b c d e f (by simpa using hmem)
  · have hins : Ev.insertH p ∉ st.log := fun hmem => hp ((h.insertIff p).1 hmem)
    simp [checkCallAfterInsertH, hins, h.recheck]
  · simpa [visitAfterVisit] using h.revisit
  · intro q; simpa using h.insertIff q
  · intro q hq; exact h.visitMem q (by simpa using hq)

theorem logOK_consVertCall {st : FFState} (h : LogOK st) {p : tripoint} {dir : Int} :
    LogOK { st with log := Ev.predCall p dir CallSrc.viaCheckVertical :: st.log } := by
  refine ⟨?_, ?_, ?_, ?_, ?_⟩
  · intro i a b c d e f hmem
    exact h.pushes i a b c d e f (by simpa using hmem)
  · simpa [checkCallAfterInsertH] using h.recheck
  · simpa [visitAfterVisit] using h.revisit
  · intro q; simpa using h.insertIff q
  · intro q hq; exact h.visitMem q (by simpa using hq)

theorem logOK_consDirectCall {st : FFState} (h : LogOK st) {p : tripoint} {dir : Int} :
    LogOK { st with log := Ev.predCall p dir CallSrc.direct :: st.log } := by
  refine ⟨?_, ?_, ?_, ?_, ?_⟩
  · intro i a b c d e f hmem
    exact h.pushes i a b c d e f (by simpa using hmem)
  · simpa [checkCallAfterInsertH] using h.recheck
  · simpa [visitAfterVisit] using h.revisit
  · intro q; simpa using h.insertIff q
  · intro q hq; exact h.visitMem q (by simpa using hq)

theorem logOK_consInsertV {st : FFState} (h : LogOK st) {p : tripoint} :
    LogOK { st with log := Ev.insertV p :: st.log,
                    visited_vertically := p :: st.visited_vertically } := by
  refine ⟨?_, ?_, ?_, ?_, ?_⟩
  · intro i a b c d e f hmem
    exact h.pushes i a b c d e f (by simpa using hmem)
  · simpa [checkCallAfterInsertH] using h.recheck
  · simpa [visitAfterVisit] using h.revisit
  · intro q; simpa using h.insertIff q
  · intro q hq; exact h.visitMem q (by simpa using hq)

theorem logOK_doVisit {st : FFState} (h : LogOK st) {p : tripoint}
    (hp : p ∉ st.visited) : LogOK (doVisit st p) := by
  have hins : Ev.insertH p ∉ st.log := fun hmem => hp ((h.insertIff p).1 hmem)
  have hvis : Ev.visit p ∉ st.log := fun hmem => hp (h.visitMem p hmem)
  refine ⟨?_, ?_, ?_, ?_, ?_⟩
  · intro i a b c d e f hmem
    simp only [doVisit, List.mem_cons] at hmem
    rcases hmem with h1 | h1 | h1
    · simp at h1
    · simp at h1
    · exact h.pushes i a b c d e f h1
  · simp [doVisit, checkCallAfterInsertH, h.recheck]
  · simp [doVisit, visitAfterVisit, hvis, h.revisit]
  · intro q
    simp only [doVisit, List.mem_cons]
    constructor
    · rintro (h1 | h1 | h1)
      · simp only [Ev.insertH.injEq] at h1; exact Or.inl h1
      · simp at h1
      · exact Or.inr ((h.insertIff q).1 h1)
    · rintro (h1 | h1)
      · exact Or.inl (by rw [h1])
      · exact Or.inr (Or.inr ((h.insertIff q).2 h1))
  · intro q hq
    simp only [doVisit, List.mem_cons] at hq
    simp only [doVisit, List.mem_cons]
    rcases hq with h1 | h1 | h1
    · simp at h1
    · simp only [Ev.visit.injEq] at h1; exact Or.inl h1
    · exact Or.inr (h.visitMem q h1)

theorem check_fst_visited (pred : tripoint → Int → Bool) (st : FFState) (p : tripoint)
    (dir : Int) : (check pred st p dir).1.visited = st.visited := by
  simp only [check]
  split <;> rfl

theorem check_logOK {pred : tripoint → Int → Bool} {st : FFState} {p : tripoint}
    {dir : Int} (h : LogOK st) : LogOK (check pred st p dir).1 := by
  simp only [check]
  split
  · exact logOK_of_eq h rfl rfl
  · exact logOK_of_eq (logOK_consCheckCall h (by assumption)) rfl rfl

theorem check_snd_not_visited {pred : tripoint → Int → Bool} {st : FFState} {p : tripoint}
    {dir : Int} (h : (check pred st p dir).2 = true) : p ∉ st.visited := by
  revert h
  simp only [check]
  split
  · intro h; simp at h
  · intro _; assumption

theorem check_vertical_fst_visited (pred : tripoint → Int → Bool) (st : FFState)
    (p : tripoint) (dir : Int) : (check_vertical pred st p dir).1.visited = st.visited := by
  simp only [check_vertical]
  split <;> rfl

theorem check_vertical_logOK {pred : tripoint → Int → Bool} {st : FFState} {p : tripoint}
    {dir : Int} (h : LogOK st) : LogOK (check_vertical pred st p dir).1 := by
  simp only [check_vertical]
  split
  · exact logOK_of_eq h rfl rfl
  · exact logOK_of_eq (logOK_consVertCall h) rfl rfl

theorem pushSpanTo_logOK {st : FFState} {idx sx ex y dy z dz : Int} (h : LogOK st)
    (hle : sx ≤ ex) : LogOK (pushSpanTo st idx sx ex y dy z dz) := by
  simp only [pushSpanTo]
  split
  · exact logOK_of_eq (logOK_consPush h hle) rfl rfl
  · exact logOK_of_eq (logOK_consPush h hle) rfl rfl

theorem visitLoop_logOK (pred : tripoint → Int → Bool) (fuel : Nat) :
    ∀ (st : FFState) (x yy zz : Int), LogOK st → LogOK (visitLoop pred fuel st x yy zz).1 := by
  induction fuel with
  | zero => intro st x yy zz h; exact logOK_of_eq h rfl rfl
  | succ fuel ih =>
    intro st x yy zz h
    simp only [visitLoop]
    split
    · refine ih _ _ _ _ (logOK_doVisit (check_logOK h) ?_)
      rw [check_fst_visited]
      exact check_snd_not_visited (by assumption)
    · exact check_logOK h

theorem leftScanLoop_logOK (pred : tripoint → Int → Bool) (fuel : Nat) :
    ∀ (st : FFState) (x yy zz : Int), LogOK st → LogOK (leftScanLoop pred fuel st x yy zz).1 := by
  induction fuel with
  | zero => intro st x yy zz h; exact logOK_of_eq h rfl rfl
  | succ fuel ih =>
    intro st x yy zz h
    simp only [leftScanLoop]
    split
    · refine ih _ _ _ _ (logOK_doVisit (check_logOK h) ?_)
      rw [check_fst_visited]
      exact check_snd_not_visited (by assumption)
    · exact check_logOK h

theorem skipScan_logOK (pred : tripoint → Int → Bool) (fuel : Nat) :
    ∀ (st : FFState) (x yy zz endX : Int), LogOK st →
      LogOK (skipScan pred fuel st x yy zz endX).1 := by
  induction fuel with
  | zero => intro st x yy zz endX h; exact logOK_of_eq h rfl rfl
  | succ fuel ih =>
    intro st x yy zz endX h
    simp only [skipScan]
    split
    · split
      · exact logOK_of_eq (logOK_consDirectCall h) rfl rfl
      · exact ih _ _ _ _ _ (logOK_of_eq (logOK_consDirectCall h) rfl rfl)
    · exact h

theorem offshootScan_logOK (pred : tripoint → Int → Bool) (fuel : Nat) :
    ∀ (st : FFState) (cs : span) (x nsx nex : Int) (sf : Bool), LogOK st →
      nsx ≤ x → (sf = true → nsx ≤ nex) →
      LogOK (offshootScan pred fuel st cs x nsx nex sf) := by
  induction fuel with
  | zero => intro st cs x nsx nex sf h _ _; exact logOK_of_eq h rfl rfl
  | succ fuel ih =>
    intro st cs x nsx nex sf h hx hsf
    simp only [offshootScan]
    split
    · split
      · refine ih _ _ _ _ _ _ ?_ (by omega) (fun _ => hx)
        exact logOK_of_eq (logOK_consInsertV (check_vertical_logOK h)) rfl rfl
      · split
        · have hle : nsx ≤ nex := hsf (by assumption)
          refine ih _ _ _ _ _ _ ?_ (by omega) (by simp)
          exact pushSpanTo_logOK (pushSpanTo_logOK (check_vertical_logOK h) hle) hle
        · exact ih _ _ _ _ _ _ (check_vertical_logOK h) (by omega) (by simp)
    · exact h

theorem processLeft_logOK (pred : tripoint → Int → Bool) (fuel : Nat) (st : FFState)
    (cs : span) (h : LogOK st) : LogOK (processLeft pred fuel st cs).1 := by
  simp only [processLeft]
  split
  · split
    · exact leftScanLoop_logOK pred fuel _ _ _ _ (check_logOK h)
    · split
      · exact pushSpanTo_logOK (leftScanLoop_logOK pred fuel _ _ _ _ (check_logOK h)) (by omega)
      · exact leftScanLoop_logOK pred fuel _ _ _ _ (check_logOK h)
  · exact check_logOK h

theorem rightScanLoop_logOK (pred : tripoint → Int → Bool) (fuel : Nat) :
    ∀ (st : FFState) (cs : span) (x fx : Int), LogOK st →
      LogOK (rightScanLoop pred fuel st cs x fx) := by
  induction fuel with
  | zero => intro st cs x fx h; exact logOK_of_eq h rfl rfl
  | succ fuel ih =>
    intro st cs x fx h
    simp only [rightScanLoop, pushA, pushB]
    split
    · exact h
    · split
      · split
        · exact visitLoop_logOK pred fuel _ _ _ _ h
        · refine ih _ _ _ _ (skipScan_logOK pred fuel _ _ _ _ _ ?_)
          have hA : LogOK (visitLoop pred fuel st x (cs.y : Int) cs.z).1 :=
            visitLoop_logOK pred fuel _ _ _ _ h
          repeat' split
          all_goals repeat (first | exact hA | refine pushSpanTo_logOK ?_ (by omega))
      · exact h

theorem processSpan_logOK (pred : tripoint → Int → Bool) (fuel : Nat) (st : FFState)
    (cs : span) (h : LogOK st) : LogOK (processSpan pred fuel st cs) := by
  simp only [processSpan]
  split
  · exact processLeft_logOK pred fuel st cs h
  · exact rightScanLoop_logOK pred fuel _ _ _ _ (processLeft_logOK pred fuel st cs h)

theorem popCurrent_pres {st st' : FFState} {cs : span}
    (h : popCurrent st = some (st', cs)) : st'.log = st.log ∧ st'.visited = st.visited := by
  revert h
  simp only [popCurrent]
  split
  · intro h; cases h
  · intro h
    simp only [Option.some.injEq, Prod.mk.injEq] at h
    obtain ⟨h1, -⟩ := h
    subst h1
    exact ⟨rfl, rfl⟩

theorem takeLayer_pres {st st' : FFState} {cs : span} {n : Nat}
    (h : takeLayer st n = some (st', cs)) : st'.log = st.log ∧ st'.visited = st.visited := by
  revert h
  simp only [takeLayer]
  split
  · intro h
    simp only [Option.some.injEq, Prod.mk.injEq] at h
    obtain ⟨h1, -⟩ := h
    subst h1
    exact ⟨rfl, rfl⟩
  · intro h; cases h

theorem findTopIdx_pres {st : FFState} :
    ∀ {n : Nat} {st' : FFState} {cs : span}, findTopIdx st n = some (st', cs) →
      st'.log = st.log ∧ st'.visited = st.visited := by
  intro n
  induction n with
  | zero => intro st' cs h; exact takeLayer_pres h
  | succ n ih =>
    intro st' cs h
    simp only [findTopIdx] at h
    revert h
    split
    · intro h
      rename_i r heq
      cases h
      exact takeLayer_pres heq
    · intro h
      exact ih h

theorem stepSpan_logOK (pred : tripoint → Int → Bool) (fuel : Nat) (st : FFState)
    (cs : span) (h : LogOK st) : LogOK (stepSpan pred fuel st cs) := by
  simp only [stepSpan]
  split
  · exact offshootScan_logOK pred fuel _ _ _ _ _ _ h le_rfl (by simp)
  · exact processSpan_logOK pred fuel st cs h

theorem mainLoop_logOK (pred : tripoint → Int → Bool) (fuel : Nat) :
    ∀ (st : FFState), LogOK st → LogOK (mainLoop pred fuel st) := by
  induction fuel with
  | zero => intro st h; exact logOK_of_eq h rfl rfl
  | succ fuel ih =>
    intro st h
    simp only [mainLoop]
    split
    · exact h
    · split
      · rename_i st1 cs heq
        refine ih _ (stepSpan_logOK pred fuel st1 cs ?_)
        obtain ⟨h1, h2⟩ := popCurrent_pres heq
        exact logOK_of_eq h h1 h2
      · split
        · rename_i st1 cs heq
          refine ih _ (stepSpan_logOK pred fuel st1 cs ?_)
          obtain ⟨h1, h2⟩ := findTopIdx_pres heq
          exact logOK_of_eq h h1 h2
        · exact logOK_of_eq h rfl rfl

theorem run10_logOK (pred : tripoint → Int → Bool) (start : tripoint) (fuel : Nat) :
    LogOK (flood_fill_visit_10_connected pred start fuel) := by
  simp only [flood_fill_visit_10_connected]
  apply mainLoop_logOK
  apply pushSpanTo_logOK (pushSpanTo_logOK ?_ le_rfl) le_rfl
  exact ⟨by simp, rfl, rfl, by simp, by simp⟩

/-! ### Lemmas about the 4-connected fill -/

theorem ff4run_visited_mono (pred : point → Bool) (fuel : Nat) :
    ∀ (st : FF4State) (p : point), p ∈ st.visited → p ∈ (ff4run pred fuel st).visited := by
  induction fuel with
  | zero => intro st p hp; simp only [ff4run]; exact hp
  | succ fuel ih =>
    intro st p hp
    simp only [ff4run]
    split
    · exact hp
    · split
      · exact ih _ _ hp
      · split
        · exact ih _ _ (List.mem_cons_of_mem _ hp)
        · exact ih _ _ (List.mem_cons_of_mem _ hp)

theorem ff4run_dequeued_sub (pred : point → Bool) (fuel : Nat) :
    ∀ (st : FF4State) (p : point), p ∈ (ff4run pred fuel st).dequeued →
      p ∈ st.dequeued ∨ p ∈ (ff4run pred fuel st).visited := by
  induction fuel with
  | zero => intro st p hp; exact Or.inl hp
  | succ fuel ih =>
    intro st p hp
    simp only [ff4run] at hp ⊢
    revert hp
    split
    · intro hp; exact Or.inl hp
    · split
      · intro hp
        rcases ih _ _ hp with h | h
        · rcases List.mem_cons.1 h with rfl | h
          · exact Or.inr (ff4run_visited_mono pred fuel _ _ (by assumption))
          · exact Or.inl h
        · exact Or.inr h
      · split
        · intro hp
          rcases ih _ _ hp with h | h
          · rcases List.mem_cons.1 h with rfl | h
            · exact Or.inr (ff4run_visited_mono pred fuel _ _ (List.mem_cons_self _ _))
            · exact Or.inl h
          · exact Or.inr h
        · intro hp
          rcases ih _ _ hp with h | h
          · rcases List.mem_cons.1 h with rfl | h
            · exact Or.inr (ff4run_visited_mono pred fuel _ _ (List.mem_cons_self _ _))
            · exact Or.inl h
          · exact Or.inr h

theorem ff4run_predCalls_fresh (pred : point → Bool) (fuel : Nat) :
    ∀ (st : FF4State) (p : point), p ∈ (ff4run pred fuel st).predCalls →
      p ∈ st.predCalls ∨ p ∉ st.visited := by
  induction fuel with
  | zero => intro st p hp; exact Or.inl hp
  | succ fuel ih =>
    intro st p hp
    simp only [ff4run] at hp
    revert hp
    split
    · intro hp; exact Or.inl hp
    · split
      · intro hp
        have h2 := ih _ _ hp
        exact h2
      · split
        · intro hp
          rcases ih _ _ hp with h | h
          · rcases List.mem_cons.1 h with rfl | h
            · exact Or.inr (by assumption)
            · exact Or.inl h
          · exact Or.inr (fun hv => h (List.mem_cons_of_mem _ hv))
        · intro hp
          rcases ih _ _ hp with h | h
          · rcases List.mem_cons.1 h with rfl | h
            · exact Or.inr (by assumption)
            · exact Or.inl h
          · exact Or.inr (fun hv => h (List.mem_cons_of_mem _ hv))

theorem ff4run_filled_mono (pred : point → Bool) (fuel : Nat) :
    ∀ (st : FF4State) (p : point), p ∈ st.filled → p ∈ (ff4run pred fuel st).filled := by
  induction fuel with
  | zero => intro st p hp; exact hp
  | succ fuel ih =>
    intro st p hp
    simp only [ff4run]
    split
    · exact hp
    · split
      · exact ih _ _ hp
      · split
        · exact ih _ _ (List.mem_cons_of_mem _ hp)
        · exact ih _ _ hp

theorem ff4run_dequeued_mono (pred : point → Bool) (fuel : Nat) :
    ∀ (st : FF4State) (p : point), p ∈ st.dequeued → p ∈ (ff4run pred fuel st).dequeued := by
  induction fuel with
  | zero => intro st p hp; exact hp
  | succ fuel ih =>
    intro st p hp
    simp only [ff4run]
    split
    · exact hp
    · split
      · exact ih _ _ (List.mem_cons_of_mem _ hp)
      · split
        · exact ih _ _ (List.mem_cons_of_mem _ hp)
        · exact ih _ _ (List.mem_cons_of_mem _ hp)

theorem ff4run_filled_pred (pred : point → Bool) (fuel : Nat) :
    ∀ (st : FF4State) (p : point), p ∈ (ff4run pred fuel st).filled →
      p ∈ st.filled ∨ pred p = true := by
  induction fuel with
  | zero => intro st p hp; exact Or.inl hp
  | succ fuel ih =>
    intro st p hp
    simp only [ff4run] at hp
    revert hp
    split
    · intro hp; exact Or.inl hp
    · split
      · intro hp
        have h2 := ih _ _ hp
        exact h2
      · split
        · intro hp
          rcases ih _ _ hp with h | h
          · rcases List.mem_cons.1 h with rfl | h
            · exact Or.inr (by assumption)
            · exact Or.inl h
          · exact Or.inr h
        · intro hp
          have h2 := ih _ _ hp
          exact h2

theorem ff4run_visited_true_filled (pred : point → Bool) (fuel : Nat) :
    ∀ (st : FF4State) (p : point), p ∈ (ff4run pred fuel st).visited →
      p ∉ st.visited → pred p = true → p ∈ (ff4run pred fuel st).filled := by
  induction fuel with
  | zero => intro st p hv hnv _; exact absurd hv hnv
  | succ fuel ih =>
    intro st p hv hnv hpred
    rcases hq : st.queue with _ | ⟨p0, q⟩
    · simp only [ff4run, hq] at hv ⊢
      exact absurd hv hnv
    · simp only [ff4run, hq] at hv ⊢
      revert hv
      split
      · intro hv; exact ih _ _ hv hnv hpred
      · split
        · intro hv
          by_cases hp0 : p = p0
          · subst hp0
            exact ff4run_filled_mono pred fuel _ _ (List.mem_cons_self _ _)
          · refine ih _ _ hv ?_ hpred
            intro hmem
            rcases List.mem_cons.1 hmem with h | h
            · exact hp0 h
            · exact hnv h
        · intro hv
          by_cases hp0 : p = p0
          · subst hp0
            exact absurd hpred (by assumption)
          · refine ih _ _ hv ?_ hpred
            intro hmem
            rcases List.mem_cons.1 hmem with h | h
            · exact hp0 h
            · exact hnv h

theorem ff4run_queue_dequeued (pred : point → Bool) (fuel : Nat) :
    ∀ (st : FF4State) (p : point), (ff4run pred fuel st).halted = false →
      p ∈ st.queue → p ∈ (ff4run pred fuel st).dequeued := by
  induction fuel with
  | zero => intro st p hhal hp; simp [ff4run] at hhal
  | succ fuel ih =>
    intro st p hhal hp
    rcases hq : st.queue with _ | ⟨p0, q⟩
    · rw [hq] at hp; cases hp
    · rw [hq] at hp
      simp only [ff4run, hq] at hhal ⊢
      revert hhal
      split
      · intro hhal
        rcases List.mem_cons.1 hp with rfl | hp2
        · exact ff4run_dequeued_mono pred fuel _ _ (List.mem_cons_self _ _)
        · exact ih _ _ hhal hp2
      · split
        · intro hhal
          rcases List.mem_cons.1 hp with rfl | hp2
          · exact ff4run_dequeued_mono pred fuel _ _ (List.mem_cons_self _ _)
          · exact ih _ _ hhal (List.mem_append_left _ hp2)
        · intro hhal
          rcases List.mem_cons.1 hp with rfl | hp2
          · exact ff4run_dequeued_mono pred fuel _ _ (List.mem_cons_self _ _)
          · exact ih _ _ hhal hp2

theorem ff4run_filled_neighbors (pred : point → Bool) (fuel : Nat) :
    ∀ (st : FF4State) (p : point), (ff4run pred fuel st).halted = false →
      p ∈ (ff4run pred fuel st).filled →
      p ∈ st.filled ∨
        (p + point_south ∈ (ff4run pred fuel st).dequeued ∧
         p + point_north ∈ (ff4run pred fuel st).dequeued ∧
         p + point_east ∈ (ff4run pred fuel st).dequeued ∧
         p + point_west ∈ (ff4run pred fuel st).dequeued) := by
  induction fuel with
  | zero => intro st p hhal hp; simp [ff4run] at hhal
  | succ fuel ih =>
    intro st p hhal hp
    rcases hq : st.queue with _ | ⟨p0, q⟩
    · simp only [ff4run, hq] at hhal hp ⊢
      exact Or.inl hp
    · simp only [ff4run, hq] at hhal hp ⊢
      revert hhal hp
      split
      · intro hhal hp
        have h2 := ih _ _ hhal hp
        exact h2
      · split
        · intro hhal hp
          by_cases hp0 : p = p0
          · subst hp0
            refine Or.inr ⟨?_, ?_, ?_, ?_⟩ <;>
              · refine ff4run_queue_dequeued pred fuel _ _ hhal ?_
                simp
          · have h2 := ih _ _ hhal hp
            rcases h2 with h | h
            · rcases List.mem_cons.1 h with h3 | h3
              · exact absurd h3 hp0
              · exact Or.inl h3
            · exact Or.inr h
        · intro hhal hp
          have h2 := ih _ _ hhal hp
          exact h2

theorem ff4run_filled_nodup (pred : point → Bool) (fuel : Nat) :
    ∀ (st : FF4State), st.filled.Nodup → (∀ p ∈ st.filled, p ∈ st.visited) →
      (ff4run pred fuel st).filled.Nodup ∧
        ∀ p ∈ (ff4run pred fuel st).filled, p ∈ (ff4run pred fuel st).visited := by
  induction fuel with
  | zero => intro st h1 h2; exact ⟨h1, h2⟩
  | succ fuel ih =>
    intro st h1 h2
    simp only [ff4run]
    split
    · exact ⟨h1, h2⟩
    · split
      · exact ih _ h1 h2
      · split
        · refine ih _ ?_ ?_
          · refine List.nodup_cons.2 ⟨fun hmem => ?_, h1⟩
            exact absurd (h2 _ hmem) (by assumption)
          · intro p hp
            rcases List.mem_cons.1 hp with rfl | hp2
            · exact List.mem_cons_self _ _
            · exact List.mem_cons_of_mem _ (h2 _ hp2)
        · refine ih _ h1 ?_
          intro p hp
          exact List.mem_cons_of_mem _ (h2 _ hp)

theorem ff4run_halted_done (pred : point → Bool) (fuel : Nat) :
    ∀ (st : FF4State), st.halted = false → (ff4run pred fuel st).halted = false →
      (ff4run pred fuel st).done = true := by
  induction fuel with
  | zero => intro st h1 h2; simp [ff4run] at h2
  | succ fuel ih =>
    intro st h1 h2
    simp only [ff4run] at h2 ⊢
    revert h2
    split
    · intro _; rfl
    · split
      · intro h2; exact ih _ h1 h2
      · split
        · intro h2; exact ih _ h1 h2
        · intro h2; exact ih _ h1 h2

theorem point_add_def (a b : point) : a + b = ⟨a.x + b.x, a.y + b.y⟩ := rfl

theorem ff4run_fuel_sufficient (pred : point → Bool) (S : Finset point)
    (hS : ∀ p, pred p = true → p ∈ S) :
    ∀ (n : Nat) (st : FF4State),
      5 * (S.filter (fun p => p ∉ st.visited)).card + st.queue.length < n →
      st.halted = false → (ff4run pred n st).halted = false := by
  intro n
  induction n with
  | zero => intro st hμ hhal; omega
  | succ n ih =>
    intro st hμ hhal
    rcases hq : st.queue with _ | ⟨p0, q⟩
    · simp only [ff4run, hq]
      exact hhal
    · rw [hq] at hμ
      simp only [List.length_cons] at hμ
      simp only [ff4run, hq]
      split
      · refine ih _ ?_ hhal
        show 5 * (S.filter (fun p => p ∉ st.visited)).card + q.length < n
        omega
      · split
        · refine ih _ ?_ hhal
          have hp0S : p0 ∈ S := hS p0 (by assumption)
          have hp0v : p0 ∉ st.visited := by assumption
          have hp0f : p0 ∈ S.filter (fun p => p ∉ st.visited) := by
            simp only [Finset.mem_filter]
            exact ⟨hp0S, hp0v⟩
          have hfe : S.filter (fun p => p ∉ p0 :: st.visited)
              = (S.filter (fun p => p ∉ st.visited)).erase p0 := by
            ext a
            simp only [Finset.mem_filter, Finset.mem_erase, List.mem_cons]
            tauto
          have hcard : (S.filter (fun p => p ∉ p0 :: st.visited)).card
              = (S.filter (fun p => p ∉ st.visited)).card - 1 := by
            rw [hfe, Finset.card_erase_of_mem hp0f]
          have hpos : 1 ≤ (S.filter (fun p => p ∉ st.visited)).card :=
            Finset.card_pos.2 ⟨p0, hp0f⟩
          show 5 * (S.filter (fun p => p ∉ p0 :: st.visited)).card +
            (q ++ [p0 + point_south, p0 + point_north, p0 + point_east, p0 + point_west]).length
              < n
          rw [hcard]
          simp only [List.length_append, List.length_cons, List.length_nil]
          omega
        · refine ih _ ?_ hhal
          have hsub : S.filter (fun p => p ∉ p0 :: st.visited)
              ⊆ S.filter (fun p => p ∉ st.visited) := by
            intro a ha
            simp only [Finset.mem_filter, List.mem_cons] at ha ⊢
            tauto
          have hcard := Finset.card_le_card hsub
          show 5 * (S.filter (fun p => p ∉ p0 :: st.visited)).card + q.length < n
          omega

theorem mem_rectFinset {x0 x1 y0 y1 : Int} {p : point} :
    p ∈ rectFinset x0 x1 y0 y1 ↔ inRect x0 x1 y0 y1 p := by
  obtain ⟨px, py⟩ := p
  simp only [rectFinset, inRect, Finset.mem_image, Finset.mem_product, Finset.mem_Icc,
    Prod.exists, point.mk.injEq]
  constructor
  · rintro ⟨a, b, ⟨⟨h1, h2⟩, h3, h4⟩, rfl, rfl⟩
    exact ⟨h1, h2, h3, h4⟩
  · rintro ⟨h1, h2, h3, h4⟩
    exact ⟨px, py, ⟨⟨h1, h2⟩, h3, h4⟩, rfl, rfl⟩

theorem rect_step {x0 x1 y0 y1 : Int} {s p : point} (hs : inRect x0 x1 y0 y1 s)
    (hp : inRect x0 x1 y0 y1 p) (hne : p ≠ s) :
    ∃ p', inRect x0 x1 y0 y1 p' ∧
      (p'.x - s.x).natAbs + (p'.y - s.y).natAbs
        < (p.x - s.x).natAbs + (p.y - s.y).natAbs ∧
      (p = p' + point_south ∨ p = p' + point_north ∨
        p = p' + point_east ∨ p = p' + point_west) := by
  obtain ⟨sx, sy⟩ := s
  obtain ⟨px, py⟩ := p
  obtain ⟨hsx0, hsx1, hsy0, hsy1⟩ := hs
  obtain ⟨hpx0, hpx1, hpy0, hpy1⟩ := hp
  simp only [inRect] at *
  rcases lt_trichotomy px sx with hx | hx | hx
  · refine ⟨⟨px + 1, py⟩, ⟨by show x0 ≤ px + 1; omega, by show px + 1 ≤ x1; omega,
      hpy0, hpy1⟩, by simp; omega, ?_⟩
    right; right; right
    rw [point_add_def]
    simp only [point_west, point.mk.injEq]
    omega
  · rcases lt_trichotomy py sy with hy | hy | hy
    · refine ⟨⟨px, py + 1⟩, ⟨hpx0, hpx1, by show y0 ≤ py + 1; omega,
        by show py + 1 ≤ y1; omega⟩, by simp; omega, ?_⟩
      right; left
      rw [point_add_def]
      simp only [point_north, point.mk.injEq]
      omega
    · exact absurd (by rw [hx, hy]) hne
    · refine ⟨⟨px, py - 1⟩, ⟨hpx0, hpx1, by show y0 ≤ py - 1; omega,
        by show py - 1 ≤ y1; omega⟩, by simp; omega, ?_⟩
      left
      rw [point_add_def]
      simp only [point_south, point.mk.injEq]
      omega
  · refine ⟨⟨px - 1, py⟩, ⟨by show x0 ≤ px - 1; omega, by show px - 1 ≤ x1; omega,
      hpy0, hpy1⟩, by simp; omega, ?_⟩
    right; right; left
    rw [point_add_def]
    simp only [point_east, point.mk.injEq]
    omega

/-! ### Termination machinery -/

theorem card_filter_notMem_cons {α : Type} [DecidableEq α] (S : Finset α) (v : List α)
    (p : α) (hpS : p ∈ S) (hpv : p ∉ v) :
    (S.filter (fun q => q ∉ p :: v)).card + 1 = (S.filter (fun q => q ∉ v)).card := by
  have hpf : p ∈ S.filter (fun q => q ∉ v) := by
    simp only [Finset.mem_filter]
    exact ⟨hpS, hpv⟩
  have hfe : S.filter (fun q => q ∉ p :: v) = (S.filter (fun q => q ∉ v)).erase p := by
    ext a
    simp only [Finset.mem_filter, Finset.mem_erase, List.mem_cons]
    tauto
  have hpos : 0 < (S.filter (fun q => q ∉ v)).card := Finset.card_pos.2 ⟨p, hpf⟩
  rw [hfe, Finset.card_erase_of_mem hpf]
  omega

theorem card_filter_notMem_cons_le {α : Type} [DecidableEq α] (S : Finset α) (v : List α)
    (p : α) :
    (S.filter (fun q => q ∉ p :: v)).card ≤ (S.filter (fun q => q ∉ v)).card := by
  refine Finset.card_le_card ?_
  intro a ha
  simp only [Finset.mem_filter, List.mem_cons] at ha ⊢
  tauto

theorem sum_map_length_push {α : Type} (l : List (List α)) (i : Nat) (a : α) :
    ((l.set i (a :: l.getD i [])).map List.length).sum ≤ (l.map List.length).sum + 1 := by
  induction l generalizing i with
  | nil => simp
  | cons hd tl ih =>
    cases i with
    | zero =>
      simp only [List.set, List.getD_cons_zero, List.map_cons, List.sum_cons, List.length_cons]
      omega
    | succ j =>
      simp only [List.set, List.getD_cons_succ, List.map_cons, List.sum_cons]
      have := ih j
      omega

theorem sum_map_length_pop {α : Type} (l : List (List α)) (i : Nat) (c : α) (r : List α)
    (h : l.getD i [] = c :: r) :
    ((l.set i r).map List.length).sum + 1 = (l.map List.length).sum := by
  induction l generalizing i with
  | nil => simp at h
  | cons hd tl ih =>
    cases i with
    | zero =>
      simp only [List.getD_cons_zero] at h
      subst h
      simp only [List.set, List.map_cons, List.sum_cons, List.length_cons]
      omega
    | succ j =>
      simp only [List.getD_cons_succ] at h
      simp only [List.set, List.map_cons, List.sum_cons]
      have := ih j h
      omega

theorem phi_congr {S : Finset tripoint} {st st' : FFState} (h1 : st'.visited = st.visited)
    (h2 : st'.visited_vertically = st.visited_vertically)
    (h3 : st'.spans_to_process = st.spans_to_process) : phi S st' = phi S st := by
  simp only [phi, hvCount, vvCount, spanCount, h1, h2, h3]

theorem check_fields (pred : tripoint → Int → Bool) (st : FFState) (p : tripoint)
    (dir : Int) :
    (check pred st p dir).1.visited = st.visited ∧
    (check pred st p dir).1.visited_vertically = st.visited_vertically ∧
    (check pred st p dir).1.spans_to_process = st.spans_to_process ∧
    (check pred st p dir).1.halted = st.halted := by
  simp only [check]
  split <;> exact ⟨rfl, rfl, rfl, rfl⟩

theorem check_snd_pred {pred : tripoint → Int → Bool} {st : FFState} {p : tripoint}
    {dir : Int} (h : (check pred st p dir).2 = true) : pred p dir = true := by
  revert h
  simp only [check]
  split
  · intro h; simp at h
  · intro h; exact h

theorem check_vertical_fields (pred : tripoint → Int → Bool) (st : FFState) (p : tripoint)
    (dir : Int) :
    (check_vertical pred st p dir).1.visited = st.visited ∧
    (check_vertical pred st p dir).1.visited_vertically = st.visited_vertically ∧
    (check_vertical pred st p dir).1.spans_to_process = st.spans_to_process ∧
    (check_vertical pred st p dir).1.halted = st.halted := by
  simp only [check_vertical]
  split <;> exact ⟨rfl, rfl, rfl, rfl⟩

theorem check_vertical_snd_not_visited {pred : tripoint → Int → Bool} {st : FFState}
    {p : tripoint} {dir : Int} (h : (check_vertical pred st p dir).2 = true) :
    p ∉ st.visited_vertically := by
  revert h
  simp only [check_vertical]
  split
  · intro h; simp at h
  · intro _; assumption

theorem check_vertical_snd_pred {pred : tripoint → Int → Bool} {st : FFState}
    {p : tripoint} {dir : Int} (h : (check_vertical pred st p dir).2 = true) :
    pred p dir = true := by
  revert h
  simp only [check_vertical]
  split
  · intro h; simp at h
  · intro h; exact h

theorem toU8_lt (v : Int) : toU8 v < 256 := by
  simp only [toU8]
  have h1 : 0 ≤ v % 256 := Int.emod_nonneg v (by norm_num)
  have h2 : v % 256 < 256 := Int.emod_lt_of_pos v (by norm_num)
  omega

theorem pushSpanTo_fields (st : FFState) (idx sx ex y dy z dz : Int) :
    (pushSpanTo st idx sx ex y dy z dz).visited = st.visited ∧
    (pushSpanTo st idx sx ex y dy z dz).visited_vertically = st.visited_vertically ∧
    (pushSpanTo st idx sx ex y dy z dz).halted = st.halted := by
  simp only [pushSpanTo]
  split <;> exact ⟨rfl, rfl, rfl⟩

theorem pushSpanTo_phi_le (S : Finset tripoint) (st : FFState) (idx sx ex y dy z dz : Int) :
    phi S (pushSpanTo st idx sx ex y dy z dz) ≤ phi S st + 1 := by
  simp only [pushSpanTo]
  split
  · simp only [phi, hvCount, vvCount, spanCount]
    have := sum_map_length_push st.spans_to_process idx.toNat (mkSpan sx ex y dy z dz)
    omega
  · simp only [phi, hvCount, vvCount, spanCount]
    omega

theorem pushSpanTo_spansBounded {st : FFState} (h : SpansBounded st)
    (idx sx ex y dy z dz : Int) : SpansBounded (pushSpanTo st idx sx ex y dy z dz) := by
  simp only [pushSpanTo]
  split
  · intro l hl sp hsp
    rcases List.mem_or_eq_of_mem_set hl with hl2 | rfl
    · exact h l hl2 sp hsp
    · rcases List.mem_cons.1 hsp with rfl | hsp2
      · exact toU8_lt ex
      · by_cases hi : idx.toNat < st.spans_to_process.length
        · have hmem : st.spans_to_process.getD idx.toNat [] ∈ st.spans_to_process := by
            rw [List.getD_eq_getElem _ _ hi]
            exact List.getElem_mem _
          exact h _ hmem sp hsp2
        · rw [List.getD_eq_default _ _ (le_of_not_lt hi)] at hsp2
          cases hsp2
  · intro l hl sp hsp
    exact h l hl sp hsp

theorem doVisit_fields (st : FFState) (p : tripoint) :
    (doVisit st p).visited_vertically = st.visited_vertically ∧
    (doVisit st p).spans_to_process = st.spans_to_process ∧
    (doVisit st p).halted = st.halted :=
  ⟨rfl, rfl, rfl⟩

theorem doVisit_phi {S : Finset tripoint} {st : FFState} {p : tripoint} (hpS : p ∈ S)
    (hpv : p ∉ st.visited) : phi S (doVisit st p) + 6 ≤ phi S st := by
  simp only [doVisit, phi, hvCount, vvCount, spanCount]
  have := card_filter_notMem_cons S st.visited p hpS hpv
  omega

theorem doVisit_hvCount_le (S : Finset tripoint) (st : FFState) (p : tripoint) :
    hvCount S (doVisit st p) ≤ hvCount S st := by
  simp only [doVisit, hvCount]
  exact card_filter_notMem_cons_le S st.visited p

theorem visitLoop_spec (pred : tripoint → Int → Bool) (S : Finset tripoint)
    (hS : ∀ p d, pred p d = true → p ∈ S) :
    ∀ (fuel : Nat) (st : FFState) (x yy zz : Int),
      st.halted = false → hvCount S st < fuel →
      (visitLoop pred fuel st x yy zz).1.halted = false ∧
      x ≤ (visitLoop pred fuel st x yy zz).2 ∧
      phi S (visitLoop pred fuel st x yy zz).1
        + 6 * ((visitLoop pred fuel st x yy zz).2 - x).toNat ≤ phi S st ∧
      hvCount S (visitLoop pred fuel st x yy zz).1 ≤ hvCount S st ∧
      (visitLoop pred fuel st x yy zz).1.visited_vertically = st.visited_vertically ∧
      (visitLoop pred fuel st x yy zz).1.spans_to_process = st.spans_to_process := by
  intro fuel
  induction fuel with
  | zero => intro st x yy zz hhal hfuel; omega
  | succ fuel ih =>
    intro st x yy zz hhal hfuel
    obtain ⟨hcv, hcvv, hcs, hch⟩ := check_fields pred st ⟨x, yy, zz⟩ 0
    simp only [visitLoop]
    split
    · rename_i hok
      have hpred : pred ⟨x, yy, zz⟩ 0 = true := check_snd_pred hok
      have hpS : (⟨x, yy, zz⟩ : tripoint) ∈ S := hS _ _ hpred
      have hpnv : (⟨x, yy, zz⟩ : tripoint) ∉ (check pred st ⟨x, yy, zz⟩ 0).1.visited := by
        rw [hcv]; exact check_snd_not_visited hok
      have hphi0 : phi S (check pred st ⟨x, yy, zz⟩ 0).1 = phi S st :=
        phi_congr hcv hcvv hcs
      have hphiD : phi S (doVisit (check pred st ⟨x, yy, zz⟩ 0).1 ⟨x, yy, zz⟩) + 6
          ≤ phi S (check pred st ⟨x, yy, zz⟩ 0).1 := doVisit_phi hpS hpnv
      have hhvD : hvCount S (doVisit (check pred st ⟨x, yy, zz⟩ 0).1 ⟨x, yy, zz⟩) < fuel := by
        have h1 := card_filter_notMem_cons S
          (check pred st ⟨x, yy, zz⟩ 0).1.visited ⟨x, yy, zz⟩ hpS hpnv
        have h2 : hvCount S (check pred st ⟨x, yy, zz⟩ 0).1 = hvCount S st := by
          simp only [hvCount, hcv]
        simp only [hvCount, doVisit] at *
        omega
      have hhalD : (doVisit (check pred st ⟨x, yy, zz⟩ 0).1 ⟨x, yy, zz⟩).halted = false := by
        have := (doVisit_fields (check pred st ⟨x, yy, zz⟩ 0).1 ⟨x, yy, zz⟩).2.2
        rw [this, hch]; exact hhal
      obtain ⟨ih1, ih2, ih3, ih4, ih5, ih6⟩ := ih _ (x + 1) yy zz hhalD hhvD
      refine ⟨ih1, by omega, ?_, ?_, ?_, ?_⟩
      · have hphiD2 : phi S (doVisit (check pred st ⟨x, yy, zz⟩ 0).1 ⟨x, yy, zz⟩) + 6
            ≤ phi S st := by omega
        omega
      · have h2 : hvCount S (check pred st ⟨x, yy, zz⟩ 0).1 = hvCount S st := by
          simp only [hvCount, hcv]
        have h3 := doVisit_hvCount_le S (check pred st ⟨x, yy, zz⟩ 0).1 ⟨x, yy, zz⟩
        omega
      · rw [ih5, (doVisit_fields _ _).1, hcvv]
      · rw [ih6, (doVisit_fields _ _).2.1, hcs]
    · refine ⟨by rw [hch]; exact hhal, le_refl x, ?_, ?_, hcvv, hcs⟩
      · rw [phi_congr hcv hcvv hcs]; simp
      · simp only [hvCount, hcv]; exact le_refl _

theorem leftScanLoop_spec (pred : tripoint → Int → Bool) (S : Finset tripoint)
    (hS : ∀ p d, pred p d = true → p ∈ S) :
    ∀ (fuel : Nat) (st : FFState) (x yy zz : Int),
      st.halted = false → hvCount S st < fuel →
      (leftScanLoop pred fuel st x yy zz).1.halted = false ∧
      (leftScanLoop pred fuel st x yy zz).2 ≤ x ∧
      phi S (leftScanLoop pred fuel st x yy zz).1
        + 6 * (x - (leftScanLoop pred fuel st x yy zz).2).toNat ≤ phi S st ∧
      hvCount S (leftScanLoop pred fuel st x yy zz).1 ≤ hvCount S st ∧
      (leftScanLoop pred fuel st x yy zz).1.visited_vertically = st.visited_vertically ∧
      (leftScanLoop pred fuel st x yy zz).1.spans_to_process = st.spans_to_process := by
  intro fuel
  induction fuel with
  | zero => intro st x yy zz hhal hfuel; omega
  | succ fuel ih =>
    intro st x yy zz hhal hfuel
    obtain ⟨hcv, hcvv, hcs, hch⟩ := check_fields pred st ⟨x, yy, zz⟩ 0
    simp only [leftScanLoop]
    split
    · rename_i hok
      have hpred : pred ⟨x, yy, zz⟩ 0 = true := check_snd_pred hok
      have hpS : (⟨x, yy, zz⟩ : tripoint) ∈ S := hS _ _ hpred
      have hpnv : (⟨x, yy, zz⟩ : tripoint) ∉ (check pred st ⟨x, yy, zz⟩ 0).1.visited := by
        rw [hcv]; exact check_snd_not_visited hok
      have hphi0 : phi S (check pred st ⟨x, yy, zz⟩ 0).1 = phi S st :=
        phi_congr hcv hcvv hcs
      have hphiD : phi S (doVisit (check pred st ⟨x, yy, zz⟩ 0).1 ⟨x, yy, zz⟩) + 6
          ≤ phi S (check pred st ⟨x, yy, zz⟩ 0).1 := doVisit_phi hpS hpnv
      have hhvD : hvCount S (doVisit (check pred st ⟨x, yy, zz⟩ 0).1 ⟨x, yy, zz⟩) < fuel := by
        have h1 := card_filter_notMem_cons S
          (check pred st ⟨x, yy, zz⟩ 0).1.visited ⟨x, yy, zz⟩ hpS hpnv
        have h2 : hvCount S (check pred st ⟨x, yy, zz⟩ 0).1 = hvCount S st := by
          simp only [hvCount, hcv]
        simp only [hvCount, doVisit] at *
        omega
      have hhalD : (doVisit (check pred st ⟨x, yy, zz⟩ 0).1 ⟨x, yy, zz⟩).halted = false := by
        have := (doVisit_fields (check pred st ⟨x, yy, zz⟩ 0).1 ⟨x, yy, zz⟩).2.2
        rw [this, hch]; exact hhal
      obtain ⟨ih1, ih2, ih3, ih4, ih5, ih6⟩ := ih _ (x - 1) yy zz hhalD hhvD
      refine ⟨ih1, by omega, ?_, ?_, ?_, ?_⟩
      · omega
      · have h2 : hvCount S (check pred st ⟨x, yy, zz⟩ 0).1 = hvCount S st := by
          simp only [hvCount, hcv]
        have h3 := doVisit_hvCount_le S (check pred st ⟨x, yy, zz⟩ 0).1 ⟨x, yy, zz⟩
        omega
      · rw [ih5, (doVisit_fields _ _).1, hcvv]
      · rw [ih6, (doVisit_fields _ _).2.1, hcs]
    · refine ⟨by rw [hch]; exact hhal, le_refl x, ?_, ?_, hcvv, hcs⟩
      · rw [phi_congr hcv hcvv hcs]; simp
      · simp only [hvCount, hcv]; exact le_refl _

theorem skipScan_spec (pred : tripoint → Int → Bool) (S : Finset tripoint) :
    ∀ (fuel : Nat) (st : FFState) (x yy zz endX : Int),
      st.halted = false → (endX - x).toNat < fuel →
      (skipScan pred fuel st x yy zz endX).1.halted = false ∧
      x ≤ (skipScan pred fuel st x yy zz endX).2 ∧
      phi S (skipScan pred fuel st x yy zz endX).1 = phi S st ∧
      hvCount S (skipScan pred fuel st x yy zz endX).1 = hvCount S st ∧
      (skipScan pred fuel st x yy zz endX).1.visited_vertically = st.visited_vertically ∧
      (skipScan pred fuel st x yy zz endX).1.spans_to_process = st.spans_to_process := by
  intro fuel
  induction fuel with
  | zero => intro st x yy zz endX hhal hfuel; omega
  | succ fuel ih =>
    intro st x yy zz endX hhal hfuel
    simp only [skipScan]
    split
    · rename_i hlt
      split
      · exact ⟨hhal, le_refl x, rfl, rfl, rfl, rfl⟩
      · obtain ⟨ih1, ih2, ih3, ih4, ih5, ih6⟩ :=
          ih { st with log := Ev.predCall ⟨x, yy, zz⟩ 0 CallSrc.direct :: st.log }
            (x + 1) yy zz endX hhal (by omega)
        exact ⟨ih1, by omega, ih3, ih4, ih5, ih6⟩
    · exact ⟨hhal, le_refl x, rfl, rfl, rfl, rfl⟩

theorem offshootScan_spec (pred : tripoint → Int → Bool) (S : Finset tripoint)
    (hS : ∀ p d, pred p d = true → p ∈ S) :
    ∀ (fuel : Nat) (st : FFState) (cs : span) (x nsx nex : Int) (sf : Bool),
      st.halted = false → ((cs.endX : Int) + 1 - x).toNat < fuel → SpansBounded st →
      (offshootScan pred fuel st cs x nsx nex sf).halted = false ∧
      phi S (offshootScan pred fuel st cs x nsx nex sf)
        ≤ phi S st + (if sf then 2 else 0) ∧
      hvCount S (offshootScan pred fuel st cs x nsx nex sf) ≤ hvCount S st ∧
      SpansBounded (offshootScan pred fuel st cs x nsx nex sf) := by
  intro fuel
  induction fuel with
  | zero => intro st cs x nsx nex sf hhal hfuel hsb; omega
  | succ fuel ih =>
    intro st cs x nsx nex sf hhal hfuel hsb
    simp only [offshootScan]
    split
    · rename_i hxe
      obtain ⟨hcv, hcvv, hcs2, hch⟩ :=
        check_vertical_fields pred st ⟨x, (cs.y : Int), cs.z⟩ cs.dz
      split
      · rename_i hok
        have hpred := check_vertical_snd_pred hok
        have hpS : (⟨x, (cs.y : Int), cs.z⟩ : tripoint) ∈ S := hS _ _ hpred
        have hpnv : (⟨x, (cs.y : Int), cs.z⟩ : tripoint)
            ∉ (check_vertical pred st ⟨x, (cs.y : Int), cs.z⟩ cs.dz).1.visited_vertically := by
          rw [hcvv]; exact check_vertical_snd_not_visited hok
        set stV : FFState := { (check_vertical pred st ⟨x, (cs.y : Int), cs.z⟩ cs.dz).1 with visited_vertically := ⟨x, (cs.y : Int), cs.z⟩ :: (check_vertical pred st ⟨x, (cs.y : Int), cs.z⟩ cs.dz).1.visited_vertically, log := Ev.insertV ⟨x, (cs.y : Int), cs.z⟩ :: (check_vertical pred st ⟨x, (cs.y : Int), cs.z⟩ cs.dz).1.log } with hstV
        have hphi : phi S stV + 3 ≤ phi S st := by
          have hc := card_filter_notMem_cons S
            (check_vertical pred st ⟨x, (cs.y : Int), cs.z⟩ cs.dz).1.visited_vertically
            ⟨x, (cs.y : Int), cs.z⟩ hpS hpnv
          rw [hstV]
          simp only [phi, hvCount, vvCount, spanCount, hcv, hcvv, hcs2] at hc ⊢
          omega
        obtain ⟨ih1, ih2, ih3, ih4⟩ := ih stV cs (x + 1) nsx x true
          (by rw [hstV]; show (check_vertical pred st ⟨x, (cs.y : Int), cs.z⟩ cs.dz).1.halted = false; rw [hch]; exact hhal)
          (by omega)
          (by rw [hstV]; intro l hl sp hsp; exact hsb l (by simpa [hcs2] using hl) sp hsp)
        refine ⟨ih1, ?_, ?_, ih4⟩
        · have ih2b : phi S (offshootScan pred fuel stV cs (x + 1) nsx x true)
              ≤ phi S stV + 2 := ih2
          split <;> omega
        · have hhv : hvCount S stV = hvCount S st := by
            rw [hstV]
            simp only [hvCount, hcv]
          omega
      · split
        · rename_i hsf
          obtain ⟨ih1, ih2, ih3, ih4⟩ := ih
            (pushSpanTo (pushSpanTo (check_vertical pred st ⟨x, (cs.y : Int), cs.z⟩ cs.dz).1
                ((check_vertical pred st ⟨x, (cs.y : Int), cs.z⟩ cs.dz).1.current_z
                  + OVERMAP_DEPTH) nsx nex (cs.y : Int) 1 cs.z 0)
              ((check_vertical pred st ⟨x, (cs.y : Int), cs.z⟩ cs.dz).1.current_z
                + OVERMAP_DEPTH) nsx nex ((cs.y : Int) - 1) (-1) cs.z 0)
            cs (x + 1) nsx nex false
            (by rw [(pushSpanTo_fields _ _ _ _ _ _ _ _).2.2,
                (pushSpanTo_fields _ _ _ _ _ _ _ _).2.2, hch]; exact hhal)
            (by omega)
            (pushSpanTo_spansBounded (pushSpanTo_spansBounded
              (by intro l hl sp hsp; exact hsb l (by simpa [hcs2] using hl) sp hsp) _ _ _ _ _ _ _)
              _ _ _ _ _ _ _)
          refine ⟨ih1, ?_, ?_, ih4⟩
          · have hp1 := pushSpanTo_phi_le S
              (check_vertical pred st ⟨x, (cs.y : Int), cs.z⟩ cs.dz).1
              ((check_vertical pred st ⟨x, (cs.y : Int), cs.z⟩ cs.dz).1.current_z
                + OVERMAP_DEPTH) nsx nex (cs.y : Int) 1 cs.z 0
            have hp2 := pushSpanTo_phi_le S
              (pushSpanTo (check_vertical pred st ⟨x, (cs.y : Int), cs.z⟩ cs.dz).1
                ((check_vertical pred st ⟨x, (cs.y : Int), cs.z⟩ cs.dz).1.current_z
                  + OVERMAP_DEPTH) nsx nex (cs.y : Int) 1 cs.z 0)
              ((check_vertical pred st ⟨x, (cs.y : Int), cs.z⟩ cs.dz).1.current_z
                + OVERMAP_DEPTH) nsx nex ((cs.y : Int) - 1) (-1) cs.z 0
            have hphi0 : phi S (check_vertical pred st ⟨x, (cs.y : Int), cs.z⟩ cs.dz).1
                = phi S st := phi_congr hcv hcvv hcs2
            simp only [show (if (false : Bool) = true then (2 : Nat) else 0) = 0 from rfl,
              Nat.add_zero] at ih2
            omega
          · have hv1 : hvCount S (pushSpanTo (pushSpanTo
                (check_vertical pred st ⟨x, (cs.y : Int), cs.z⟩ cs.dz).1
                ((check_vertical pred st ⟨x, (cs.y : Int), cs.z⟩ cs.dz).1.current_z
                  + OVERMAP_DEPTH) nsx nex (cs.y : Int) 1 cs.z 0)
                ((check_vertical pred st ⟨x, (cs.y : Int), cs.z⟩ cs.dz).1.current_z
                  + OVERMAP_DEPTH) nsx nex ((cs.y : Int) - 1) (-1) cs.z 0)
                = hvCount S st := by
              simp only [hvCount, (pushSpanTo_fields _ _ _ _ _ _ _ _).1, hcv]
            omega
        · obtain ⟨ih1, ih2, ih3, ih4⟩ := ih
            (check_vertical pred st ⟨x, (cs.y : Int), cs.z⟩ cs.dz).1 cs (x + 1) nsx nex false
            (by rw [hch]; exact hhal) (by omega)
            (by intro l hl sp hsp; exact hsb l (by simpa [hcs2] using hl) sp hsp)
          refine ⟨ih1, ?_, ?_, ih4⟩
          · have hphi0 : phi S (check_vertical pred st ⟨x, (cs.y : Int), cs.z⟩ cs.dz).1
                = phi S st := phi_congr hcv hcvv hcs2
            simp only [show (if (false : Bool) = true then (2 : Nat) else 0) = 0 from rfl,
              Nat.add_zero] at ih2
            omega
          · have hv0 : hvCount S (check_vertical pred st ⟨x, (cs.y : Int), cs.z⟩ cs.dz).1
                = hvCount S st := by simp only [hvCount, hcv]
            omega
    · refine ⟨hhal, ?_, le_refl _, hsb⟩
      split <;> omega

theorem pushSpanTo_halted (st : FFState) (idx sx ex y dy z dz : Int) :
    (pushSpanTo st idx sx ex y dy z dz).halted = st.halted :=
  (pushSpanTo_fields st idx sx ex y dy z dz).2.2

theorem pushSpanTo_visited (st : FFState) (idx sx ex y dy z dz : Int) :
    (pushSpanTo st idx sx ex y dy z dz).visited = st.visited :=
  (pushSpanTo_fields st idx sx ex y dy z dz).1

theorem pushA_halted (st : FFState) (cs : span) (x1 fx : Int) :
    (pushA st cs x1 fx).halted = st.halted := by
  simp only [pushA]
  repeat' split
  all_goals first | rfl | simp only [pushSpanTo_halted]

theorem pushA_visited (st : FFState) (cs : span) (x1 fx : Int) :
    (pushA st cs x1 fx).visited = st.visited := by
  simp only [pushA]
  repeat' split
  all_goals first | rfl | simp only [pushSpanTo_visited]

theorem pushA_spansBounded {st : FFState} (h : SpansBounded st) (cs : span) (x1 fx : Int) :
    SpansBounded (pushA st cs x1 fx) := by
  simp only [pushA]
  repeat' split
  all_goals repeat (first | exact h | refine pushSpanTo_spansBounded ?_ _ _ _ _ _ _ _)

theorem pushA_phi (S : Finset tripoint) (st : FFState) (cs : span) (x1 fx : Int) :
    phi S (pushA st cs x1 fx) ≤ phi S st + (if fx < x1 then 3 else 0) := by
  simp only [pushA]
  split
  · have h1 := pushSpanTo_phi_le S st (st.current_z + OVERMAP_DEPTH) (fx - 1) x1
      ((cs.y : Int) + cs.dy) cs.dy cs.z 0
    set q1 := pushSpanTo st (st.current_z + OVERMAP_DEPTH) (fx - 1) x1 ((cs.y : Int) + cs.dy) cs.dy cs.z 0 with hq1
    split
    · have h2 := pushSpanTo_phi_le S q1 (q1.current_z + OVERMAP_DEPTH + 1) fx (x1 - 1)
        (cs.y : Int) 0 (cs.z + 1) 1
      set q2 := pushSpanTo q1 (q1.current_z + OVERMAP_DEPTH + 1) fx (x1 - 1) (cs.y : Int) 0 (cs.z + 1) 1 with hq2
      split
      · have h3 := pushSpanTo_phi_le S q2 (q2.current_z + OVERMAP_DEPTH - 1) fx (x1 - 1)
          (cs.y : Int) 0 (cs.z - 1) (-1)
        omega
      · omega
    · split
      · have h3 := pushSpanTo_phi_le S q1 (q1.current_z + OVERMAP_DEPTH - 1) fx (x1 - 1)
          (cs.y : Int) 0 (cs.z - 1) (-1)
        omega
      · omega
  · omega

theorem pushB_halted (st : FFState) (cs : span) (x1 : Int) :
    (pushB st cs x1).halted = st.halted := by
  simp only [pushB]
  split
  · simp only [pushSpanTo_halted]
  · rfl

theorem pushB_visited (st : FFState) (cs : span) (x1 : Int) :
    (pushB st cs x1).visited = st.visited := by
  simp only [pushB]
  split
  · simp only [pushSpanTo_visited]
  · rfl

theorem pushB_spansBounded {st : FFState} (h : SpansBounded st) (cs : span) (x1 : Int) :
    SpansBounded (pushB st cs x1) := by
  simp only [pushB]
  split
  · exact pushSpanTo_spansBounded h _ _ _ _ _ _ _
  · exact h

theorem pushB_phi (S : Finset tripoint) (st : FFState) (cs : span) (x1 : Int) :
    phi S (pushB st cs x1) ≤ phi S st + (if (cs.endX : Int) < x1 - 1 then 1 else 0) := by
  simp only [pushB]
  split
  · exact pushSpanTo_phi_le S st (st.current_z + OVERMAP_DEPTH) ((cs.endX : Int) + 1) x1
      ((cs.y : Int) - cs.dy) (-cs.dy) cs.z 0
  · omega

theorem popSlot_facts {st : FFState} {i : Nat} {c : span} {r : List span}
    (hslot : st.spans_to_process.getD i [] = c :: r) :
    ((st.spans_to_process.set i r).map List.length).sum + 1
      = (st.spans_to_process.map List.length).sum ∧
    (SpansBounded st →
      (∀ l ∈ st.spans_to_process.set i r, ∀ sp ∈ l, sp.endX < 256) ∧ c.endX < 256) := by
  refine ⟨sum_map_length_pop _ _ _ _ hslot, ?_⟩
  intro hsb
  by_cases hi : i < st.spans_to_process.length
  · have hmem : st.spans_to_process.getD i [] ∈ st.spans_to_process := by
      rw [List.getD_eq_getElem _ _ hi]
      exact List.getElem_mem _
    have hslotB := hsb _ hmem
    rw [hslot] at hslotB
    refine ⟨?_, hslotB c (List.mem_cons_self c r)⟩
    intro l hl sp hsp
    rcases List.mem_or_eq_of_mem_set hl with hl2 | rfl
    · exact hsb l hl2 sp hsp
    · exact hslotB sp (List.mem_cons_of_mem c hsp)
  · rw [List.getD_eq_default _ _ (le_of_not_lt hi)] at hslot
    cases hslot

theorem popCurrent_spec (S : Finset tripoint) {st st1 : FFState} {cs : span}
    (h : popCurrent st = some (st1, cs)) :
    phi S st1 + 1 = phi S st ∧ hvCount S st1 = hvCount S st ∧
    st1.halted = st.halted ∧
    (SpansBounded st → SpansBounded st1 ∧ cs.endX < 256) := by
  revert h
  simp only [popCurrent]
  split
  · intro h; cases h
  · rename_i c rest hslot
    intro h
    simp only [Option.some.injEq, Prod.mk.injEq] at h
    obtain ⟨h1, h2⟩ := h
    subst h2
    have hvv : st1.visited = st.visited := by rw [← h1]
    have hvv2 : st1.visited_vertically = st.visited_vertically := by rw [← h1]
    have hsp : st1.spans_to_process
        = st.spans_to_process.set (st.current_z + OVERMAP_DEPTH).toNat rest := by rw [← h1]
    have hh : st1.halted = st.halted := by rw [← h1]
    obtain ⟨hsum, hbb⟩ := popSlot_facts hslot
    refine ⟨?_, ?_, hh, ?_⟩
    · simp only [phi, hvCount, vvCount, spanCount, hvv, hvv2, hsp]
      omega
    · simp only [hvCount, hvv]
    · intro hsb
      obtain ⟨hset, hcb⟩ := hbb hsb
      refine ⟨?_, hcb⟩
      intro l hl
      rw [hsp] at hl
      exact hset l hl

theorem takeLayer_spec (S : Finset tripoint) {st st1 : FFState} {cs : span} {n : Nat}
    (h : takeLayer st n = some (st1, cs)) :
    phi S st1 + 1 = phi S st ∧ hvCount S st1 = hvCount S st ∧
    st1.halted = st.halted ∧
    (SpansBounded st → SpansBounded st1 ∧ cs.endX < 256) := by
  revert h
  simp only [takeLayer]
  split
  · rename_i c rest hslot
    intro h
    simp only [Option.some.injEq, Prod.mk.injEq] at h
    obtain ⟨h1, h2⟩ := h
    subst h2
    have hvv : st1.visited = st.visited := by rw [← h1]
    have hvv2 : st1.visited_vertically = st.visited_vertically := by rw [← h1]
    have hsp : st1.spans_to_process = st.spans_to_process.set n rest := by rw [← h1]
    have hh : st1.halted = st.halted := by rw [← h1]
    obtain ⟨hsum, hbb⟩ := popSlot_facts hslot
    refine ⟨?_, ?_, hh, ?_⟩
    · simp only [phi, hvCount, vvCount, spanCount, hvv, hvv2, hsp]
      omega
    · simp only [hvCount, hvv]
    · intro hsb
      obtain ⟨hset, hcb⟩ := hbb hsb
      refine ⟨?_, hcb⟩
      intro l hl
      rw [hsp] at hl
      exact hset l hl
  · intro h; cases h

theorem findTopIdx_spec (S : Finset tripoint) {st : FFState} :
    ∀ {n : Nat} {st1 : FFState} {cs : span}, findTopIdx st n = some (st1, cs) →
      phi S st1 + 1 = phi S st ∧ hvCount S st1 = hvCount S st ∧
      st1.halted = st.halted ∧
      (SpansBounded st → SpansBounded st1 ∧ cs.endX < 256) := by
  intro n
  induction n with
  | zero => intro st1 cs h; exact takeLayer_spec S h
  | succ n ih =>
    intro st1 cs h
    simp only [findTopIdx] at h
    revert h
    split
    · intro h
      rename_i r heq
      cases h
      exact takeLayer_spec S heq
    · intro h
      exact ih h

theorem hvCount_congr {S : Finset tripoint} {st st' : FFState}
    (h : st'.visited = st.visited) : hvCount S st' = hvCount S st := by
  simp only [hvCount, h]

theorem pushSpanTo_hvCount (S : Finset tripoint) (st : FFState) (idx sx ex y dy z dz : Int) :
    hvCount S (pushSpanTo st idx sx ex y dy z dz) = hvCount S st :=
  hvCount_congr (pushSpanTo_visited st idx sx ex y dy z dz)

theorem processLeft_spec (pred : tripoint → Int → Bool) (S : Finset tripoint)
    (hS : ∀ p d, pred p d = true → p ∈ S) (fuel : Nat) (st : FFState) (cs : span)
    (hhal : st.halted = false) (hfuel : hvCount S st < fuel) :
    (processLeft pred fuel st cs).1.halted = false ∧
    (processLeft pred fuel st cs).2 ≤ (cs.startX : Int) ∧
    phi S (processLeft pred fuel st cs).1
      + (if (processLeft pred fuel st cs).2 < (cs.startX : Int) then 5 else 0) ≤ phi S st ∧
    hvCount S (processLeft pred fuel st cs).1 ≤ hvCount S st ∧
    (SpansBounded st → SpansBounded (processLeft pred fuel st cs).1) := by
  obtain ⟨hcv, hcvv, hcs, hch⟩ := check_fields pred st ⟨(cs.startX : Int), (cs.y : Int), cs.z⟩ 0
  simp only [processLeft]
  set c0 := check pred st ⟨(cs.startX : Int), (cs.y : Int), cs.z⟩ 0 with hc0
  have hphi0 : phi S c0.1 = phi S st := phi_congr hcv hcvv hcs
  have hhv0 : hvCount S c0.1 = hvCount S st := hvCount_congr hcv
  split
  · have hchal : c0.1.halted = false := by rw [hch]; exact hhal
    obtain ⟨L1, L2, L3, L4, L5, L6⟩ := leftScanLoop_spec pred S hS fuel c0.1
      ((cs.startX : Int) - 1) (cs.y : Int) cs.z hchal (by omega)
    set L := leftScanLoop pred fuel c0.1 ((cs.startX : Int) - 1) (cs.y : Int) cs.z with hL
    split
    · rename_i h; rw [L1] at h; cases h
    · split
      · rename_i hlt
        have hp := pushSpanTo_phi_le S L.1 (L.1.current_z + OVERMAP_DEPTH) (L.2 + 1 - 1)
          ((cs.startX : Int) - 1) ((cs.y : Int) - cs.dy) (-cs.dy) cs.z 0
        refine ⟨?_, ?_, ?_, ?_, ?_⟩
        · show (pushSpanTo L.1 (L.1.current_z + OVERMAP_DEPTH) (L.2 + 1 - 1)
            ((cs.startX : Int) - 1) ((cs.y : Int) - cs.dy) (-cs.dy) cs.z 0).halted = false
          rw [pushSpanTo_halted, L1]
        · show L.2 + 1 ≤ (cs.startX : Int)
          omega
        · show phi S (pushSpanTo L.1 (L.1.current_z + OVERMAP_DEPTH) (L.2 + 1 - 1)
            ((cs.startX : Int) - 1) ((cs.y : Int) - cs.dy) (-cs.dy) cs.z 0) + 5 ≤ phi S st
          omega
        · show hvCount S (pushSpanTo L.1 (L.1.current_z + OVERMAP_DEPTH) (L.2 + 1 - 1)
            ((cs.startX : Int) - 1) ((cs.y : Int) - cs.dy) (-cs.dy) cs.z 0) ≤ hvCount S st
          rw [pushSpanTo_hvCount]
          omega
        · intro hsb
          show SpansBounded (pushSpanTo L.1 (L.1.current_z + OVERMAP_DEPTH) (L.2 + 1 - 1)
            ((cs.startX : Int) - 1) ((cs.y : Int) - cs.dy) (-cs.dy) cs.z 0)
          refine pushSpanTo_spansBounded ?_ _ _ _ _ _ _ _
          intro l hl
          rw [L6, hcs] at hl
          exact hsb l hl
      · rename_i hnlt
        refine ⟨?_, ?_, ?_, ?_, ?_⟩
        · show L.1.halted = false
          exact L1
        · show L.2 + 1 ≤ (cs.startX : Int)
          omega
        · show phi S L.1 + 0 ≤ phi S st
          omega
        · show hvCount S L.1 ≤ hvCount S st
          omega
        · intro hsb
          show SpansBounded L.1
          intro l hl
          rw [L6, hcs] at hl
          exact hsb l hl
  · refine ⟨?_, ?_, ?_, ?_, ?_⟩
    · show c0.1.halted = false
      rw [hch]; exact hhal
    · show (cs.startX : Int) ≤ (cs.startX : Int)
      exact le_refl _
    · show phi S c0.1 + (if (cs.startX : Int) < (cs.startX : Int) then 5 else 0) ≤ phi S st
      rw [if_neg (lt_irrefl _)]
      omega
    · show hvCount S c0.1 ≤ hvCount S st
      omega
    · intro hsb
      show SpansBounded c0.1
      intro l hl
      rw [hcs] at hl
      exact hsb l hl

theorem rightScanLoop_spec (pred : tripoint → Int → Bool) (S : Finset tripoint)
    (hS : ∀ p d, pred p d = true → p ∈ S) :
    ∀ (fuel : Nat) (st : FFState) (cs : span) (x fx : Int),
      st.halted = false → SpansBounded st → fx ≤ x →
      ((cs.endX : Int) + 1 - x).toNat + hvCount S st + 1 < fuel →
      (rightScanLoop pred fuel st cs x fx).halted = false ∧
      phi S (rightScanLoop pred fuel st cs x fx) ≤ phi S st + (if fx < x then 3 else 0) ∧
      hvCount S (rightScanLoop pred fuel st cs x fx) ≤ hvCount S st ∧
      SpansBounded (rightScanLoop pred fuel st cs x fx) := by
  intro fuel
  induction fuel with
  | zero => intro st cs x fx h1 h2 h3 h4; omega
  | succ fuel ih =>
    intro st cs x fx hhal hsb hfxx hfuel
    simp only [rightScanLoop]
    split
    · rename_i h; rw [hhal] at h; cases h
    · split
      · rename_i hnh hx
        have hfv : hvCount S st < fuel := by omega
        obtain ⟨V1, V2, V3, V4, V5, V6⟩ :=
          visitLoop_spec pred S hS fuel st x (cs.y : Int) cs.z hhal hfv
        set v := visitLoop pred fuel st x (cs.y : Int) cs.z with hveq
        split
        · rename_i h; rw [V1] at h; cases h
        · have hsb_v : SpansBounded v.1 := by
            intro l hl
            rw [V6] at hl
            exact hsb l hl
          have hA_hal := pushA_halted v.1 cs v.2 fx
          have hA_vis := pushA_visited v.1 cs v.2 fx
          have hA_phi := pushA_phi S v.1 cs v.2 fx
          have hA_sb : SpansBounded (pushA v.1 cs v.2 fx) := pushA_spansBounded hsb_v cs v.2 fx
          set a := pushA v.1 cs v.2 fx with haeq
          have hB_hal := pushB_halted a cs v.2
          have hB_vis := pushB_visited a cs v.2
          have hB_phi := pushB_phi S a cs v.2
          have hB_sb : SpansBounded (pushB a cs v.2) := pushB_spansBounded hA_sb cs v.2
          set b := pushB a cs v.2 with hbeq
          have hb_hal : b.halted = false := by rw [hB_hal, hA_hal, V1]
          have hhv_b : hvCount S b ≤ hvCount S st := by
            rw [hvCount_congr hB_vis, hvCount_congr hA_vis]
            omega
          obtain ⟨K1, K2, K3, K4, K5, K6⟩ := skipScan_spec pred S fuel b (v.2 + 1)
            (cs.y : Int) cs.z (cs.endX : Int) hb_hal (by omega)
          set k := skipScan pred fuel b (v.2 + 1) (cs.y : Int) cs.z (cs.endX : Int) with hkeq
          have hsb_k : SpansBounded k.1 := by
            intro l hl
            rw [K6] at hl
            exact hB_sb l hl
          obtain ⟨R1, R2, R3, R4⟩ := ih k.1 cs k.2 k.2 K1 hsb_k (le_refl k.2) (by omega)
          rw [if_neg (lt_irrefl k.2)] at R2
          refine ⟨R1, ?_, by omega, R4⟩
          by_cases h1 : fx < v.2
          · rw [if_pos h1] at hA_phi
            by_cases h2 : (cs.endX : Int) < v.2 - 1
            · rw [if_pos h2] at hB_phi
              by_cases h3 : fx < x
              · rw [if_pos h3]
                omega
              · rw [if_neg h3]
                omega
            · rw [if_neg h2] at hB_phi
              by_cases h3 : fx < x
              · rw [if_pos h3]
                omega
              · rw [if_neg h3]
                omega
          · rw [if_neg h1] at hA_phi
            by_cases h2 : (cs.endX : Int) < v.2 - 1
            · rw [if_pos h2] at hB_phi
              by_cases h3 : fx < x
              · rw [if_pos h3]
                omega
              · rw [if_neg h3]
                omega
            · rw [if_neg h2] at hB_phi
              by_cases h3 : fx < x
              · rw [if_pos h3]
                omega
              · rw [if_neg h3]
                omega
      · rename_i hnh hnx
        refine ⟨hhal, ?_, le_refl _, hsb⟩
        split <;> omega

theorem processSpan_spec (pred : tripoint → Int → Bool) (S : Finset tripoint)
    (hS : ∀ p d, pred p d = true → p ∈ S) (fuel : Nat) (st : FFState) (cs : span)
    (hhal : st.halted = false) (hsb : SpansBounded st)
    (hfuel : cs.endX + hvCount S st + 2 < fuel) :
    (processSpan pred fuel st cs).halted = false ∧
    phi S (processSpan pred fuel st cs) ≤ phi S st ∧
    hvCount S (processSpan pred fuel st cs) ≤ hvCount S st ∧
    SpansBounded (processSpan pred fuel st cs) := by
  obtain ⟨P1, P2, P3, P4, P5⟩ := processLeft_spec pred S hS fuel st cs hhal (by omega)
  simp only [processSpan]
  split
  · rename_i h; rw [P1] at h; cases h
  · obtain ⟨R1, R2, R3, R4⟩ := rightScanLoop_spec pred S hS fuel
      (processLeft pred fuel st cs).1 cs (cs.startX : Int) (processLeft pred fuel st cs).2
      P1 (P5 hsb) P2 (by omega)
    refine ⟨R1, ?_, by omega, R4⟩
    by_cases hc : (processLeft pred fuel st cs).2 < (cs.startX : Int)
    · rw [if_pos hc] at R2 P3
      omega
    · rw [if_neg hc] at R2 P3
      omega

theorem stepSpan_spec (pred : tripoint → Int → Bool) (S : Finset tripoint)
    (hS : ∀ p d, pred p d = true → p ∈ S) (fuel : Nat) (st : FFState) (cs : span)
    (hhal : st.halted = false) (hsb : SpansBounded st)
    (hfuel : cs.endX + hvCount S st + 2 < fuel) :
    (stepSpan pred fuel st cs).halted = false ∧
    phi S (stepSpan pred fuel st cs) ≤ phi S st ∧
    hvCount S (stepSpan pred fuel st cs) ≤ hvCount S st ∧
    SpansBounded (stepSpan pred fuel st cs) := by
  simp only [stepSpan]
  split
  · obtain ⟨O1, O2, O3, O4⟩ := offshootScan_spec pred S hS fuel st cs (cs.startX : Int)
      (cs.startX : Int) (cs.endX : Int) false hhal (by omega) hsb
    refine ⟨O1, ?_, O3, O4⟩
    rw [show (if (false : Bool) = true then (2 : Nat) else 0) = 0 from rfl] at O2
    omega
  · exact processSpan_spec pred S hS fuel st cs hhal hsb hfuel

theorem mainLoop_spec (pred : tripoint → Int → Bool) (S : Finset tripoint)
    (hS : ∀ p d, pred p d = true → p ∈ S) :
    ∀ (fuel : Nat) (st : FFState),
      st.halted = false → SpansBounded st →
      phi S st + hvCount S st + 260 < fuel →
      (mainLoop pred fuel st).halted = false ∧ (mainLoop pred fuel st).done = true := by
  intro fuel
  induction fuel with
  | zero => intro st h1 h2 h3; omega
  | succ fuel ih =>
    intro st hhal hsb hfuel
    simp only [mainLoop]
    split
    · rename_i h; rw [hhal] at h; cases h
    · split
      · rename_i st1 cs hpop
        obtain ⟨hphi, hhv, hhal1, hbb⟩ := popCurrent_spec S hpop
        obtain ⟨hsb1, hend⟩ := hbb hsb
        obtain ⟨S1, S2, S3, S4⟩ := stepSpan_spec pred S hS fuel st1 cs
          (by rw [hhal1]; exact hhal) hsb1 (by omega)
        exact ih _ S1 S4 (by omega)
      · split
        · rename_i st1 cs hfind
          obtain ⟨hphi, hhv, hhal1, hbb⟩ := findTopIdx_spec S hfind
          obtain ⟨hsb1, hend⟩ := hbb hsb
          obtain ⟨S1, S2, S3, S4⟩ := stepSpan_spec pred S hS fuel st1 cs
            (by rw [hhal1]; exact hhal) hsb1 (by omega)
          exact ih _ S1 S4 (by omega)
        · exact ⟨hhal, rfl⟩

theorem ff26step_facts (pred : tripoint → Int → Bool) (S : Finset tripoint)
    (hS : ∀ p d, pred p d = true → p ∈ S) (st : FF26State) (p : tripoint) (dir : Int)
    (q qup qdown : List tripoint) :
    (ff26step pred st p dir q qup qdown).halted = st.halted ∧
    11 * (S.filter (fun w => w ∉ (ff26step pred st p dir q qup qdown).visited)).card
      + (ff26step pred st p dir q qup qdown).to_check.length
      + (ff26step pred st p dir q qup qdown).to_check_up.length
      + (ff26step pred st p dir q qup qdown).to_check_down.length
      ≤ 11 * (S.filter (fun w => w ∉ st.visited)).card
        + q.length + qup.length + qdown.length := by
  simp only [ff26step]
  split
  · refine ⟨rfl, ?_⟩
    show 11 * (S.filter (fun w => w ∉ st.visited)).card
      + q.length + qup.length + qdown.length
      ≤ 11 * (S.filter (fun w => w ∉ st.visited)).card
        + q.length + qup.length + qdown.length
    exact le_refl _
  · split
    · rename_i hnv hp
      refine ⟨rfl, ?_⟩
      have hpS : p ∈ S := hS p dir hp
      have hcard := card_filter_notMem_cons S st.visited p hpS hnv
      show 11 * (S.filter (fun w => w ∉ p :: st.visited)).card
        + (q ++ eight_horizontal_neighbors.map (fun h => p + h)).length
        + (qup ++ [p + tripoint_above]).length
        + (qdown ++ [p + tripoint_below]).length
        ≤ 11 * (S.filter (fun w => w ∉ st.visited)).card
          + q.length + qup.length + qdown.length
      simp only [List.length_append, List.length_map, List.length_cons, List.length_nil]
      have hlen8 : eight_horizontal_neighbors.length = 8 := rfl
      rw [hlen8]
      omega
    · refine ⟨rfl, ?_⟩
      have hle := card_filter_notMem_cons_le S st.visited p
      show 11 * (S.filter (fun w => w ∉ p :: st.visited)).card
        + q.length + qup.length + qdown.length
        ≤ 11 * (S.filter (fun w => w ∉ st.visited)).card
          + q.length + qup.length + qdown.length
      omega

theorem ff26run_fuel_sufficient (pred : tripoint → Int → Bool) (S : Finset tripoint)
    (hS : ∀ p d, pred p d = true → p ∈ S) :
    ∀ (n : Nat) (st : FF26State),
      11 * (S.filter (fun w => w ∉ st.visited)).card
        + st.to_check.length + st.to_check_up.length + st.to_check_down.length < n →
      st.halted = false → (ff26run pred n st).halted = false := by
  intro n
  induction n with
  | zero => intro st hμ hhal; omega
  | succ n ih =>
    intro st hμ hhal
    rcases hq : st.to_check with _ | ⟨p0, q⟩
    · rcases hqu : st.to_check_up with _ | ⟨p1, qu⟩
      · rcases hqd : st.to_check_down with _ | ⟨p2, qd⟩
        · simp only [ff26run, hq, hqu, hqd]
          exact hhal
        · simp only [ff26run, hq, hqu, hqd]
          obtain ⟨hh, hm⟩ := ff26step_facts pred S hS st p2 (-1) [] [] qd
          refine ih _ ?_ (by rw [hh]; exact hhal)
          rw [hq, hqu, hqd] at hμ
          simp only [List.length_cons, List.length_nil] at hμ hm
          omega
      · simp only [ff26run, hq, hqu]
        obtain ⟨hh, hm⟩ := ff26step_facts pred S hS st p1 1 [] qu st.to_check_down
        refine ih _ ?_ (by rw [hh]; exact hhal)
        rw [hq, hqu] at hμ
        simp only [List.length_cons, List.length_nil] at hμ hm
        omega
    · simp only [ff26run, hq]
      obtain ⟨hh, hm⟩ := ff26step_facts pred S hS st p0 0 q st.to_check_up st.to_check_down
      refine ih _ ?_ (by rw [hh]; exact hhal)
      rw [hq] at hμ
      simp only [List.length_cons] at hμ
      omega

theorem ff26run_halted_done (pred : tripoint → Int → Bool) :
    ∀ (n : Nat) (st : FF26State), (ff26run pred n st).halted = false →
      (ff26run pred n st).done = true := by
  intro n
  induction n with
  | zero =>
    intro st h
    exact absurd h (by simp [ff26run])
  | succ n ih =>
    intro st h
    rcases hq : st.to_check with _ | ⟨p0, q⟩
    · rcases hqu : st.to_check_up with _ | ⟨p1, qu⟩
      · rcases hqd : st.to_check_down with _ | ⟨p2, qd⟩
        · simp [ff26run, hq, hqu, hqd]
        · simp only [ff26run, hq, hqu, hqd] at h ⊢
          exact ih _ h
      · simp only [ff26run, hq, hqu] at h ⊢
        exact ih _ h
    · simp only [ff26run, hq] at h ⊢
      exact ih _ h

theorem flood_fill_10_fuel_sufficient (pred : tripoint → Int → Bool) (S : Finset tripoint)
    (hS : ∀ p d, pred p d = true → p ∈ S) (start : tripoint) :
    (flood_fill_visit_10_connected pred start (10 * S.card + 263)).done = true ∧
    (flood_fill_visit_10_connected pred start (10 * S.card + 263)).halted = false := by
  have hfe : S.filter (fun w => w ∉ ([] : List tripoint)) = S :=
    Finset.filter_true_of_mem (by intro x hx; simp)
  simp only [flood_fill_visit_10_connected]
  set s0 : FFState := { visited := [], visited_vertically := [], spans_to_process := List.replicate OVERMAP_LAYERS.toNat [], current_z := start.z, log := [], check_count := 0, visit_count := 0, oob := false, halted := false, done := false } with hs0
  have hhv0 : hvCount S s0 = S.card := by
    show (S.filter (fun w => w ∉ ([] : List tripoint))).card = S.card
    rw [hfe]
  have hvv0 : vvCount S s0 = S.card := by
    show (S.filter (fun w => w ∉ ([] : List tripoint))).card = S.card
    rw [hfe]
  have hsc0 : spanCount s0 = 0 := by
    show ((List.replicate OVERMAP_LAYERS.toNat ([] : List span)).map List.length).sum = 0
    rfl
  have hphi0 : phi S s0 = 9 * S.card := by
    simp only [phi]
    rw [hhv0, hvv0, hsc0]
    omega
  have hp1 := pushSpanTo_phi_le S s0 (start.z + OVERMAP_DEPTH) start.x start.x start.y 1
    start.z 0
  set s1 := pushSpanTo s0 (start.z + OVERMAP_DEPTH) start.x start.x start.y 1 start.z 0 with hs1
  have hp2 := pushSpanTo_phi_le S s1 (start.z + OVERMAP_DEPTH) start.x start.x (start.y - 1)
    (-1) start.z 0
  set s2 := pushSpanTo s1 (start.z + OVERMAP_DEPTH) start.x start.x (start.y - 1) (-1) start.z 0 with hs2
  have hhal2 : s2.halted = false := by
    rw [hs2, pushSpanTo_halted, hs1, pushSpanTo_halted]
  have hhv2 : hvCount S s2 = S.card := by
    rw [hs2, pushSpanTo_hvCount, hs1, pushSpanTo_hvCount]
    exact hhv0
  have hsb2 : SpansBounded s2 := by
    rw [hs2]
    refine pushSpanTo_spansBounded ?_ _ _ _ _ _ _ _
    rw [hs1]
    refine pushSpanTo_spansBounded ?_ _ _ _ _ _ _ _
    intro l hl sp hsp
    have hl2 : l ∈ List.replicate OVERMAP_LAYERS.toNat ([] : List span) := hl
    have hle := List.eq_of_mem_replicate hl2
    subst hle
    cases hsp
  obtain ⟨M1, M2⟩ := mainLoop_spec pred S hS (10 * S.card + 263) s2 hhal2 hsb2 (by omega)
  exact ⟨M2, M1⟩

/-! ### Claim theorems -/

/-- Claim C2 (code bug): during the vertical-offshoot scan, a maximal
predicate-true run that is still open when x passes the span end pushes no
confirmed span pair.  On the two-cell tower, the completed fill records the
predicate call and the vertical-visited insertion of the upper cell (5,5,1),
yet never pushes any `dz = 0` span onto the upper layer's backlog (slot 11)
and never hands (5,5,1) to the visitor — contradicting the spec's "pushed
... when a run ends (including at span end)". -/
theorem C2_trailing_run_pushes_no_pair :
    (flood_fill_visit_10_connected predTower ⟨5, 5, 0⟩ 8).done = true ∧
    Ev.predCall ⟨5, 5, 1⟩ 1 CallSrc.viaCheckVertical
      ∈ (flood_fill_visit_10_connected predTower ⟨5, 5, 0⟩ 8).log ∧
    Ev.insertV ⟨5, 5, 1⟩ ∈ (flood_fill_visit_10_connected predTower ⟨5, 5, 0⟩ 8).log ∧
    hasPushIdxDz (flood_fill_visit_10_connected predTower ⟨5, 5, 0⟩ 8).log 11 0 = false ∧
    ⟨5, 5, 1⟩ ∉ visitsOf (flood_fill_visit_10_connected predTower ⟨5, 5, 0⟩ 8).log :=
  ⟨by decide!, by decide!, by decide!, by decide!, by decide!⟩

/-- Claim C6 (code bug): starting inside the valid layer range, on the top
layer `z = 10`, any forward progress pushes an upward offshoot guarded only
by `current_z + 1 < OVERMAP_LAYERS` (true for `z = 10`), so the backlog
array is written at index 21 — outside `[0, OVERMAP_LAYERS)` — and the
embedding's out-of-bounds flag is raised. -/
theorem C6_top_layer_offshoot_out_of_bounds :
    (flood_fill_visit_10_connected predTop ⟨5, 5, 10⟩ 8).oob = true ∧
    Ev.pushSpan 21 5 5 5 0 11 1 ∈ (flood_fill_visit_10_connected predTop ⟨5, 5, 10⟩ 8).log :=
  ⟨by decide!, by decide!⟩

/-- Claim C7 (code bug): on layer 0 — a layer strictly above the bottom
layer — the completed single-cell fill makes forward progress (it pushes the
upward offshoot onto slot 11) but never pushes any `dz = -1` span: the
downward guard `current_z - 1 >= 0` compares the unbiased z against the
array bound, so no downward offshoot is emitted from any layer `z ≤ 0`. -/
theorem C7_no_downward_offshoot_from_layer_zero :
    (flood_fill_visit_10_connected predFlatOne ⟨5, 5, 0⟩ 8).done = true ∧
    Ev.pushSpan 11 5 5 5 0 1 1 ∈ (flood_fill_visit_10_connected predFlatOne ⟨5, 5, 0⟩ 8).log ∧
    hasPushDz (flood_fill_visit_10_connected predFlatOne ⟨5, 5, 0⟩ 8).log (-1) = false :=
  ⟨by decide!, by decide!, by decide!⟩

/-- Claim C3 counterexample: for the flat predicate true exactly on the
diagonally adjacent pair (5,5) and (4,6) of layer 0, started at (5,5,0), all
three completed fills disagree with the claim: the scanline fill and the
26-connected fill both hand (4,6,0) to the visitor while the 4-connected
fill's result does not contain (4,6), so the three visit sets are not equal. -/
theorem C3_counterexample_diagonal_pair :
    ((flood_fill_visit_10_connected predDiag ⟨5, 5, 0⟩ 10).done = true ∧
      ⟨4, 6, 0⟩ ∈ visitsOf (flood_fill_visit_10_connected predDiag ⟨5, 5, 0⟩ 10).log) ∧
    ((point_flood_fill_4_connected ⟨5, 5⟩ [] predDiag2d 8).done = true ∧
      ⟨4, 6⟩ ∉ (point_flood_fill_4_connected ⟨5, 5⟩ [] predDiag2d 8).filled) ∧
    ((flood_fill_visit_26_connected ⟨5, 5, 0⟩ predDiag 24).done = true ∧
      ⟨4, 6, 0⟩ ∈ (flood_fill_visit_26_connected ⟨5, 5, 0⟩ predDiag 24).visitLog) :=
  ⟨⟨by decide!, by decide!⟩, ⟨by decide!, by decide!⟩, ⟨by decide!, by decide!⟩⟩

/-- Claim C3 amended: on a single-layer domain the three fills need not
produce equal visit sets, and absence of diagonal adjacency does not restore
agreement.  On the diagonal pair (the counterexample) the scanline and
26-connected fills visit a cell the 4-connected fill excludes.  Conversely,
on the vertical domino {(0,0),(0,1)} — two 4-connected cells, no diagonal
adjacency — the completed scanline fill started at (0,0,0) visits only
(0,0,0): its continuation span is pushed with intended
`startX = furthestX - 1 = -1`, which the `uint8_t` field stores as 255, so
the stored span scans nothing and (0,1,0) is missed, while the completed
4-connected and 26-connected fills both return exactly the two domino
cells.  On the single-cell region at (5,5) started there, the three visit
sets do coincide. -/
theorem C3_flat_divergence_and_single_cell_instance :
    ((flood_fill_visit_10_connected predDomino ⟨0, 0, 0⟩ 6).done = true ∧
      visitsOf (flood_fill_visit_10_connected predDomino ⟨0, 0, 0⟩ 6).log = [⟨0, 0, 0⟩] ∧
      Ev.pushSpan 10 (-1) 1 1 1 0 0
        ∈ (flood_fill_visit_10_connected predDomino ⟨0, 0, 0⟩ 6).log) ∧
    ((point_flood_fill_4_connected ⟨0, 0⟩ [] predDomino2d 10).done = true ∧
      (point_flood_fill_4_connected ⟨0, 0⟩ [] predDomino2d 10).filled = [⟨0, 1⟩, ⟨0, 0⟩]) ∧
    ((flood_fill_visit_26_connected ⟨0, 0, 0⟩ predDomino 22).done = true ∧
      (flood_fill_visit_26_connected ⟨0, 0, 0⟩ predDomino 22).visitLog
        = [⟨0, 1, 0⟩, ⟨0, 0, 0⟩]) ∧
    ((flood_fill_visit_10_connected predFlatOne ⟨5, 5, 0⟩ 8).done = true ∧
      visitsOf (flood_fill_visit_10_connected predFlatOne ⟨5, 5, 0⟩ 8).log = [⟨5, 5, 0⟩]) ∧
    ((flood_fill_visit_26_connected ⟨5, 5, 0⟩ predFlatOne 14).done = true ∧
      (flood_fill_visit_26_connected ⟨5, 5, 0⟩ predFlatOne 14).visitLog = [⟨5, 5, 0⟩]) ∧
    ((point_flood_fill_4_connected ⟨5, 5⟩ [] predFlatOne2d 8).done = true ∧
      (point_flood_fill_4_connected ⟨5, 5⟩ [] predFlatOne2d 8).filled = [⟨5, 5⟩]) :=
  ⟨⟨by decide!, by decide!, by decide!⟩, ⟨by decide!, by decide!⟩, ⟨by decide!, by decide!⟩,
    ⟨by decide!, by decide!⟩, ⟨by decide!, by decide!⟩, ⟨by decide!, by decide!⟩⟩

/-- Claim C4 counterexample: on the ledge predicate the completed fill
re-invokes the predicate on coordinate (3,5,0) after that coordinate was
inserted into the horizontal visited set — the downward offshoot emitted
from layer 1 covers it and `check_vertical` consults only the vertical
visited set, so the log scanner finds a predicate call whose coordinate has
an earlier horizontal insertion. -/
theorem C4_counterexample_reinvocation_after_insert :
    (flood_fill_visit_10_connected predLedge ⟨3, 5, 0⟩ 14).done = true ∧
    callAfterInsertH (flood_fill_visit_10_connected predLedge ⟨3, 5, 0⟩ 14).log = true :=
  ⟨by decide!, by decide!⟩

/-- Claim C4 amended: once a coordinate has been inserted into the
horizontal visited set it is never handed to the visitor again, and the
predicate is never re-invoked on it through the horizontal `check` helper
(which consults that set); only the gap-skipping direct call and the
vertical `check_vertical` call can re-invoke the predicate on it. -/
theorem C4_amended_no_recheck_through_check (pred : tripoint → Int → Bool)
    (start : tripoint) (fuel : Nat) :
    checkCallAfterInsertH (flood_fill_visit_10_connected pred start fuel).log = false ∧
    visitAfterVisit (flood_fill_visit_10_connected pred start fuel).log = false :=
  ⟨(run10_logOK pred start fuel).recheck, (run10_logOK pred start fuel).revisit⟩

/-- Claim C5: every span pushed onto any per-layer backlog, at any point of
any execution of the scanline fill (every fuel bound gives a faithful prefix
of the source's execution), satisfies `startX ≤ endX` in the intended
pre-narrowing coordinates recorded at the push site. -/
theorem C5_pushed_spans_ordered (pred : tripoint → Int → Bool) (start : tripoint)
    (fuel : Nat) (idx sx ex y dy z dz : Int)
    (hmem : Ev.pushSpan idx sx ex y dy z dz
      ∈ (flood_fill_visit_10_connected pred start fuel).log) : sx ≤ ex :=
  (run10_logOK pred start fuel).pushes idx sx ex y dy z dz hmem

/-- Witness for C5: the seed span of the one-cell fill is in the log and the
theorem yields its ordering. -/
theorem C5_pushed_spans_ordered_witness : (5 : Int) ≤ 5 :=
  C5_pushed_spans_ordered predFlatOne ⟨5, 5, 0⟩ 8 10 5 5 5 1 0 0 (by decide!)

/-- Claim C10: when the caller's visited set already contains the starting
point, the 4-connected fill dequeues it, finds it visited, drains the queue
and stops: it returns the empty vector, never invokes the predicate, and
leaves the visited set unchanged. -/
theorem C10_visited_start_returns_empty (pred : point → Bool) (visited : List point)
    (s : point) (fuel : Nat) (hs : s ∈ visited) (hf : 2 ≤ fuel) :
    (point_flood_fill_4_connected s visited pred fuel).filled = [] ∧
    (point_flood_fill_4_connected s visited pred fuel).predCalls = [] ∧
    (point_flood_fill_4_connected s visited pred fuel).visited = visited ∧
    (point_flood_fill_4_connected s visited pred fuel).done = true := by
  obtain ⟨n, rfl⟩ : ∃ n, fuel = n + 2 := ⟨fuel - 2, by omega⟩
  simp [point_flood_fill_4_connected, ff4run, hs]

/-- Claim C1: for every predicate that is true exactly on a finite
rectangular region and every starting point inside the region, the
4-connected fill called with an initially empty visited set completes (for
sufficient fuel) and returns a sequence containing exactly the region's
cells, each exactly once. -/
theorem C1_rectangle_fill_exact (x0 x1 y0 y1 : Int) (s : point) (pred : point → Bool)
    (hpred : ∀ p, pred p = true ↔ inRect x0 x1 y0 y1 p)
    (hs : inRect x0 x1 y0 y1 s) :
    ∃ fuel,
      (point_flood_fill_4_connected s [] pred fuel).halted = false ∧
      (point_flood_fill_4_connected s [] pred fuel).done = true ∧
      (∀ p, p ∈ (point_flood_fill_4_connected s [] pred fuel).filled
          ↔ inRect x0 x1 y0 y1 p) ∧
      (point_flood_fill_4_connected s [] pred fuel).filled.Nodup := by
  have hS : ∀ p, pred p = true → p ∈ rectFinset x0 x1 y0 y1 := fun p hp =>
    mem_rectFinset.2 ((hpred p).1 hp)
  simp only [point_flood_fill_4_connected]
  set st0 : FF4State := { queue := [s], visited := [], filled := [], dequeued := [], predCalls := [], done := false, halted := false } with hst0
  obtain ⟨fuel, hfuel⟩ : ∃ fuel, (ff4run pred fuel st0).halted = false := by
    refine ⟨5 * (rectFinset x0 x1 y0 y1).card + 2,
      ff4run_fuel_sufficient pred _ hS _ _ ?_ rfl⟩
    have hb := Finset.card_filter_le (rectFinset x0 x1 y0 y1)
      (fun p => p ∉ ([] : List point))
    show 5 * ((rectFinset x0 x1 y0 y1).filter (fun p => p ∉ ([] : List point))).card
      + [s].length < 5 * (rectFinset x0 x1 y0 y1).card + 2
    simp only [List.length_cons, List.length_nil]
    omega
  refine ⟨fuel, hfuel, ff4run_halted_done pred fuel _ rfl hfuel, ?_, ?_⟩
  · intro p
    constructor
    · intro hp
      rcases ff4run_filled_pred pred fuel _ p hp with h | h
      · exact absurd h (List.not_mem_nil p)
      · exact (hpred p).1 h
    · intro hp
      have main : ∀ (d : Nat) (p : point),
          (p.x - s.x).natAbs + (p.y - s.y).natAbs = d → inRect x0 x1 y0 y1 p →
          p ∈ (ff4run pred fuel st0).filled := by
        intro d
        induction d using Nat.strong_induction_on with
        | _ d ihd =>
          intro p hd hp
          by_cases hps : p = s
          · subst hps
            have hdq : p ∈ (ff4run pred fuel st0).dequeued :=
              ff4run_queue_dequeued pred fuel _ p hfuel (List.mem_cons_self p [])
            have hvis : p ∈ (ff4run pred fuel st0).visited := by
              rcases ff4run_dequeued_sub pred fuel _ p hdq with h | h
              · exact absurd h (List.not_mem_nil p)
              · exact h
            exact ff4run_visited_true_filled pred fuel _ p hvis (List.not_mem_nil p)
              ((hpred p).2 hp)
          · obtain ⟨p', hp', hlt, hrel⟩ := rect_step hs hp hps
            have hfilled' : p' ∈ (ff4run pred fuel st0).filled :=
              ihd ((p'.x - s.x).natAbs + (p'.y - s.y).natAbs) (by omega) p' rfl hp'
            rcases ff4run_filled_neighbors pred fuel _ p' hfuel hfilled' with h | h
            · exact absurd h (List.not_mem_nil p')
            · obtain ⟨h1, h2, h3, h4⟩ := h
              have hdq : p ∈ (ff4run pred fuel st0).dequeued := by
                rcases hrel with h5 | h5 | h5 | h5
                · rw [h5]; exact h1
                · rw [h5]; exact h2
                · rw [h5]; exact h3
                · rw [h5]; exact h4
              have hvis : p ∈ (ff4run pred fuel st0).visited := by
                rcases ff4run_dequeued_sub pred fuel _ p hdq with h6 | h6
                · exact absurd h6 (List.not_mem_nil p)
                · exact h6
              exact ff4run_visited_true_filled pred fuel _ p hvis (List.not_mem_nil p)
                ((hpred p).2 hp)
      exact main _ p rfl hp
  · exact (ff4run_filled_nodup pred fuel _ List.nodup_nil
      (fun p hp => absurd hp (List.not_mem_nil p))).1

/-- Witness for C1: the one-cell rectangle `[0,0] × [0,0]` filled from its
only cell. -/
theorem C1_rectangle_fill_exact_witness :
    ∃ fuel,
      (point_flood_fill_4_connected ⟨0, 0⟩ []
        (fun p => decide (inRect 0 0 0 0 p)) fuel).halted = false ∧
      (point_flood_fill_4_connected ⟨0, 0⟩ []
        (fun p => decide (inRect 0 0 0 0 p)) fuel).done = true ∧
      (∀ p, p ∈ (point_flood_fill_4_connected ⟨0, 0⟩ []
          (fun p => decide (inRect 0 0 0 0 p)) fuel).filled ↔ inRect 0 0 0 0 p) ∧
      (point_flood_fill_4_connected ⟨0, 0⟩ []
        (fun p => decide (inRect 0 0 0 0 p)) fuel).filled.Nodup :=
  C1_rectangle_fill_exact 0 0 0 0 ⟨0, 0⟩ _
    (fun p => by simp) (by decide)

/-- Claim C8: the 4-connected fill inserts into the caller's visited set
every point it dequeues that was not already there — including points
failing the predicate — so every dequeued point ends up in the final visited
set; consequently a second call sharing the same visited set never passes
any point dequeued by the first call to its predicate. -/
theorem C8_shared_visited_memoization (pred1 pred2 : point → Bool) (s1 s2 : point)
    (v : List point) (fuel1 fuel2 : Nat) :
    (∀ p ∈ (point_flood_fill_4_connected s1 v pred1 fuel1).dequeued,
        p ∈ (point_flood_fill_4_connected s1 v pred1 fuel1).visited) ∧
    (∀ p ∈ (point_flood_fill_4_connected s2
          (point_flood_fill_4_connected s1 v pred1 fuel1).visited pred2 fuel2).predCalls,
        p ∉ (point_flood_fill_4_connected s1 v pred1 fuel1).dequeued) := by
  have h1 : ∀ p ∈ (point_flood_fill_4_connected s1 v pred1 fuel1).dequeued,
      p ∈ (point_flood_fill_4_connected s1 v pred1 fuel1).visited := by
    intro p hp
    rcases ff4run_dequeued_sub pred1 fuel1 _ p hp with h | h
    · exact absurd h (List.not_mem_nil p)
    · exact h
  refine ⟨h1, ?_⟩
  intro p hp hdq
  rcases ff4run_predCalls_fresh pred2 fuel2 _ p hp with h | h
  · exact absurd h (List.not_mem_nil p)
  · exact h (h1 p hdq)

/-- Witness for C10 at a concrete input. -/
theorem C10_visited_start_returns_empty_witness :
    (point_flood_fill_4_connected ⟨1, 2⟩ [⟨1, 2⟩] (fun _ => true) 2).filled = [] ∧
    (point_flood_fill_4_connected ⟨1, 2⟩ [⟨1, 2⟩] (fun _ => true) 2).predCalls = [] ∧
    (point_flood_fill_4_connected ⟨1, 2⟩ [⟨1, 2⟩] (fun _ => true) 2).visited = [⟨1, 2⟩] ∧
    (point_flood_fill_4_connected ⟨1, 2⟩ [⟨1, 2⟩] (fun _ => true) 2).done = true :=
  C10_visited_start_returns_empty _ _ _ _ (by decide) (by decide)

/-- Claim C9 (confirmed): for every predicate that is true only on a finite
set of cells (formalised by a finite support set containing every cell on
which the predicate can return true, for any direction hint), each of
`point_flood_fill_4_connected`, `flood_fill_visit_26_connected` and
`flood_fill_visit_10_connected` terminates: some fuel bound makes the run
reach the loop's natural exit (`done = true`) without the fuel cutoff ever
firing (`halted = false`).  The bounds used are 5·|support| + 2 iterations
for the 4-connected fill, 11·|support| + 2 for the 26-connected fill, and
10·|support| + 263 spans processed for the 10-connected scanline fill. -/
theorem C9_all_fills_terminate
    (pred4 : point → Bool) (S4 : Finset point) (h4 : ∀ p, pred4 p = true → p ∈ S4)
    (start4 : point) (visited4 : List point)
    (pred : tripoint → Int → Bool) (S : Finset tripoint)
    (hS : ∀ p d, pred p d = true → p ∈ S) (start : tripoint) :
    (∃ fuel, (point_flood_fill_4_connected start4 visited4 pred4 fuel).done = true ∧
      (point_flood_fill_4_connected start4 visited4 pred4 fuel).halted = false) ∧
    (∃ fuel, (flood_fill_visit_26_connected start pred fuel).done = true ∧
      (flood_fill_visit_26_connected start pred fuel).halted = false) ∧
    (∃ fuel, (flood_fill_visit_10_connected pred start fuel).done = true ∧
      (flood_fill_visit_10_connected pred start fuel).halted = false) := by
  refine ⟨?_, ?_, ?_⟩
  · simp only [point_flood_fill_4_connected]
    refine ⟨5 * (S4.filter (fun w => w ∉ visited4)).card + 2, ?_⟩
    have hhal : (ff4run pred4 (5 * (S4.filter (fun w => w ∉ visited4)).card + 2) { queue := [start4], visited := visited4, filled := [], dequeued := [], predCalls := [], done := false, halted := false }).halted = false := by
      refine ff4run_fuel_sufficient pred4 S4 h4 _ _ ?_ rfl
      show 5 * (S4.filter (fun w => w ∉ visited4)).card + ([start4] : List point).length
        < 5 * (S4.filter (fun w => w ∉ visited4)).card + 2
      simp only [List.length_cons, List.length_nil]
      omega
    exact ⟨ff4run_halted_done pred4 _ _ rfl hhal, hhal⟩
  · simp only [flood_fill_visit_26_connected]
    have hfe : S.filter (fun w => w ∉ ([] : List tripoint)) = S :=
      Finset.filter_true_of_mem (by intro x hx; simp)
    refine ⟨11 * S.card + 2, ?_⟩
    have hhal : (ff26run pred (11 * S.card + 2) { to_check := [start], to_check_up := [], to_check_down := [], visited := [], visitLog := [], predCalls := [], done := false, halted := false }).halted = false := by
      refine ff26run_fuel_sufficient pred S hS _ _ ?_ rfl
      show 11 * (S.filter (fun w => w ∉ ([] : List tripoint))).card
          + ([start] : List tripoint).length + ([] : List tripoint).length
          + ([] : List tripoint).length
        < 11 * S.card + 2
      rw [hfe]
      simp only [List.length_cons, List.length_nil]
      omega
    exact ⟨ff26run_halted_done pred _ _ hhal, hhal⟩
  · exact ⟨10 * S.card + 263, flood_fill_10_fuel_sufficient pred S hS start⟩

theorem C9_all_fills_terminate_witness :
    (∃ fuel, (point_flood_fill_4_connected ⟨0, 0⟩ [] (fun _ => false) fuel).done = true ∧
      (point_flood_fill_4_connected ⟨0, 0⟩ [] (fun _ => false) fuel).halted = false) ∧
    (∃ fuel, (flood_fill_visit_26_connected ⟨0, 0, 0⟩ (fun _ _ => false) fuel).done = true ∧
      (flood_fill_visit_26_connected ⟨0, 0, 0⟩ (fun _ _ => false) fuel).halted = false) ∧
    (∃ fuel, (flood_fill_visit_10_connected (fun _ _ => false) ⟨0, 0, 0⟩ fuel).done = true ∧
      (flood_fill_visit_10_connected (fun _ _ => false) ⟨0, 0, 0⟩ fuel).halted = false) :=
  C9_all_fills_terminate (fun _ => false) ∅ (fun _ h => Bool.noConfusion h) ⟨0, 0⟩ []
    (fun _ _ => false) ∅ (fun _ _ h => Bool.noConfusion h) ⟨0, 0, 0⟩

end ff
